import Mathlib

/-!
Verification of the `eslint-plugin-next-intl` repository: the CLI message
checker (usage resolver + reconciler + structural delete), the key-loading
core (`flattenKeys`, `loadMessages`) and the two ESLint rules
(`no-dynamic-keys`, `no-missing-keys`).

JavaScript strings are modelled as lists of characters (`Str`), so that the
path operations of the source (template-join with a dot, `split(".")`) are
plain list operations.  JSON documents are modelled by the nested inductive
type `JVal`; JavaScript objects are association lists whose keys are unique
(the theorems that need uniqueness carry it as a hypothesis).
-/

/-- JavaScript strings, modelled as character lists. -/
abbrev Str := List Char

/-- Conversion from Lean string literals into the model. -/
def chars (x : String) : Str := x.data

/-- JSON values as produced by `JSON.parse`.  Leaf payloads are opaque
(the source never inspects them beyond truthiness / `typeof`). -/
inductive JVal where
  | vnull : JVal
  | vleaf : Str → JVal
  | vobj : List (Str × JVal) → JVal
  | varr : List JVal → JVal

/-- The test `typeof v === "object" && v !== null`: exactly the non-null objects,
i.e. plain objects and arrays. -/
def JVal.isContainer : JVal → Bool
  | .vobj _ => true
  | .varr _ => true
  | _ => false

/-- The prefix join of the source: `prefix ? prefix + "." + key : key`
(an empty prefix string is falsy in JavaScript). -/
def joinKey (pre k : Str) : Str :=
  if pre = [] then k else pre ++ '.' :: k

/-- Decimal rendering of an array index, as `for … in` enumerates it. -/
def natKey (i : Nat) : Str := (Nat.repr i).data

mutual
/-- The `flattenKeys` traversal of `core.ts` on a single value: containers are traversed,
anything else contributes its dot-path. -/
def flattenVal (pre : Str) : JVal → List Str
  | .vobj fields => flattenFields pre fields
  | .varr elems => flattenElems pre 0 elems
  | _ => []

/-- The `flattenKeys` loop `for (const key in obj)` over an object. -/
def flattenFields (pre : Str) : List (Str × JVal) → List Str
  | [] => []
  | (k, v) :: rest =>
    (if v.isContainer then flattenVal (joinKey pre k) v else [joinKey pre k])
      ++ flattenFields pre rest

/-- The `flattenKeys` loop `for (const key in obj)` over an array, whose
enumerable keys are the decimal index strings. -/
def flattenElems (pre : Str) (i : Nat) : List JVal → List Str
  | [] => []
  | v :: rest =>
    (if v.isContainer then flattenVal (joinKey pre (natKey i)) v
     else [joinKey pre (natKey i)])
      ++ flattenElems pre (i + 1) rest
end

/-- An array viewed as the index-keyed object that `for … in` presents. -/
def indexFields (i : Nat) : List JVal → List (Str × JVal)
  | [] => []
  | v :: rest => (natKey i, v) :: indexFields (i + 1) rest

mutual
/-- Decidable equality for `JVal` (the derive handler does not support the
nested inductive, so it is spelt out). -/
def decEqV : (a b : JVal) → Decidable (a = b)
  | .vnull, .vnull => .isTrue rfl
  | .vnull, .vleaf _ => .isFalse (fun h => JVal.noConfusion h)
  | .vnull, .vobj _ => .isFalse (fun h => JVal.noConfusion h)
  | .vnull, .varr _ => .isFalse (fun h => JVal.noConfusion h)
  | .vleaf _, .vnull => .isFalse (fun h => JVal.noConfusion h)
  | .vleaf a, .vleaf b =>
    if h : a = b then .isTrue (by rw [h]) else
      .isFalse (fun hh => h (JVal.vleaf.inj hh))
  | .vleaf _, .vobj _ => .isFalse (fun h => JVal.noConfusion h)
  | .vleaf _, .varr _ => .isFalse (fun h => JVal.noConfusion h)
  | .vobj _, .vnull => .isFalse (fun h => JVal.noConfusion h)
  | .vobj _, .vleaf _ => .isFalse (fun h => JVal.noConfusion h)
  | .vobj fs, .vobj gs =>
    match decEqF fs gs with
    | .isTrue h => .isTrue (by rw [h])
    | .isFalse h => .isFalse (fun hh => h (JVal.vobj.inj hh))
  | .vobj _, .varr _ => .isFalse (fun h => JVal.noConfusion h)
  | .varr _, .vnull => .isFalse (fun h => JVal.noConfusion h)
  | .varr _, .vleaf _ => .isFalse (fun h => JVal.noConfusion h)
  | .varr _, .vobj _ => .isFalse (fun h => JVal.noConfusion h)
  | .varr xs, .varr ys =>
    match decEqA xs ys with
    | .isTrue h => .isTrue (by rw [h])
    | .isFalse h => .isFalse (fun hh => h (JVal.varr.inj hh))

/-- Decidable equality for object field lists. -/
def decEqF : (a b : List (Str × JVal)) → Decidable (a = b)
  | [], [] => .isTrue rfl
  | [], _ :: _ => .isFalse (fun h => List.noConfusion h)
  | _ :: _, [] => .isFalse (fun h => List.noConfusion h)
  | (k, v) :: r, (k2, v2) :: r2 =>
    if hk : k = k2 then
      match decEqV v v2, decEqF r r2 with
      | .isTrue h1, .isTrue h2 => .isTrue (by rw [hk, h1, h2])
      | .isFalse h1, _ => .isFalse (fun hh => by
          injection hh with hp hr
          exact h1 (congrArg Prod.snd hp))
      | _, .isFalse h2 => .isFalse (fun hh => by
          injection hh with hp hr
          exact h2 hr)
    else
      .isFalse (fun hh => by
        injection hh with hp hr
        exact hk (congrArg Prod.fst hp))

/-- Decidable equality for array element lists. -/
def decEqA : (a b : List JVal) → Decidable (a = b)
  | [], [] => .isTrue rfl
  | [], _ :: _ => .isFalse (fun h => List.noConfusion h)
  | _ :: _, [] => .isFalse (fun h => List.noConfusion h)
  | v :: r, v2 :: r2 =>
    match decEqV v v2, decEqA r r2 with
    | .isTrue h1, .isTrue h2 => .isTrue (by rw [h1, h2])
    | .isFalse h1, _ => .isFalse (fun hh => by
        injection hh with hp hr
        exact h1 hp)
    | _, .isFalse h2 => .isFalse (fun hh => by
        injection hh with hp hr
        exact h2 hr)
end

instance : DecidableEq JVal := decEqV

/-- The reconciler of the CLI `main`: one pass over the defined keys
collecting those not used, one pass over the used keys collecting those not
defined.  Returned as `(missingKeys, unusedKeys)`. -/
def reconcile (allDefinedKeys usedKeys : Finset Str) : Finset Str × Finset Str :=
  (usedKeys.filter (fun k => k ∉ allDefinedKeys),
   allDefinedKeys.filter (fun k => k ∉ usedKeys))

/-- Reading `obj[key]` on an object: first (only, keys being unique) binding. -/
def lookupField : List (Str × JVal) → Str → Option JVal
  | [], _ => none
  | (k2, v) :: rest, k => if k2 = k then some v else lookupField rest k

/-- The statement `delete obj[key]`: removes the binding of `key` when there is one. -/
def eraseField : List (Str × JVal) → Str → List (Str × JVal)
  | [], _ => []
  | (k2, v) :: rest, k => if k2 = k then rest else (k2, v) :: eraseField rest k

/-- Assignment `obj[key] = v`: replaces the binding in place (appends when absent). -/
def setField : List (Str × JVal) → Str → JVal → List (Str × JVal)
  | [], k, v => [(k, v)]
  | (k2, v2) :: rest, k, v =>
    if k2 = k then (k, v) :: rest else (k2, v2) :: setField rest k v

/-- The `key in obj` membership test. -/
def containsKey : List (Str × JVal) → Str → Bool
  | [], _ => false
  | (k2, _) :: rest, k => k2 = k || containsKey rest k

/-- The `deleteKey` helper of the CLI: descends along the path parts, deletes the leaf
binding and prunes every ancestor container that became empty, returning
whether the object it was handed became empty.  The recursive descent
happens exactly when `obj[key]` is truthy and of `typeof "object"`; in this
model only plain objects are descended — arrays (which JavaScript would
also descend, with delete-hole semantics this tree type cannot express) are
excluded from every theorem below by the `wfFields` hypothesis. -/
def deleteKey (fields : List (Str × JVal)) : List Str → List (Str × JVal) × Bool
  | [] => (fields, false)
  | [k] =>
    let fields2 := eraseField fields k
    (fields2, fields2.isEmpty)
  | k :: k2 :: rest =>
    match lookupField fields k with
    | some (JVal.vobj fs) =>
      let r := deleteKey fs (k2 :: rest)
      if r.2 then
        let fields2 := eraseField fields k
        (fields2, fields2.isEmpty)
      else
        (setField fields k (JVal.vobj r.1), false)
    | _ => (fields, false)

mutual
/-- Well-formed document value: no arrays, and every nested object is
non-empty with well-formed fields. -/
def wfVal : JVal → Bool
  | .vobj fs => !fs.isEmpty && wfFields fs
  | .varr _ => false
  | _ => true

/-- Well-formed field list: unique keys, well-formed values. -/
def wfFields : List (Str × JVal) → Bool
  | [] => true
  | (k, v) :: rest => !containsKey rest k && wfVal v && wfFields rest
end

/-- A dot-path (split into parts) is present in a document when following
its segments through nested objects reaches an existing binding. -/
def pathPresent (fields : List (Str × JVal)) : List Str → Bool
  | [] => false
  | [k] => (lookupField fields k).isSome
  | k :: k2 :: rest =>
    match lookupField fields k with
    | some (JVal.vobj fs) => pathPresent fs (k2 :: rest)
    | _ => false

mutual
/-- The flattening traversal of `flattenKeys`, additionally carrying the
leaf value reached at each emitted dot-path (the source emits only the
path; `flattenPairs_map_fst` ties the two). -/
def flattenPairsV (pre : Str) : JVal → List (Str × JVal)
  | .vobj fields => flattenPairsF pre fields
  | .varr elems => flattenPairsA pre 0 elems
  | _ => []

/-- The `flattenPairsV` traversal over the fields of an object. -/
def flattenPairsF (pre : Str) : List (Str × JVal) → List (Str × JVal)
  | [] => []
  | (k, v) :: rest =>
    (if v.isContainer then flattenPairsV (joinKey pre k) v
     else [(joinKey pre k, v)])
      ++ flattenPairsF pre rest

/-- The `flattenPairsV` traversal over the elements of an array. -/
def flattenPairsA (pre : Str) (i : Nat) : List JVal → List (Str × JVal)
  | [] => []
  | v :: rest =>
    (if v.isContainer then flattenPairsV (joinKey pre (natKey i)) v
     else [(joinKey pre (natKey i), v)])
      ++ flattenPairsA pre (i + 1) rest
end

/-- Splitting `path.split(".")` on a character-list string. -/
def splitDot : Str → List Str
  | [] => [[]]
  | c :: rest =>
    match splitDot rest with
    | [] => []
    | p :: ps => if c = '.' then [] :: p :: ps else (c :: p) :: ps

/-- Joining segments with `.`, the inverse direction of `splitDot`. -/
def joinSegs : List Str → Str
  | [] => []
  | [s] => s
  | s :: rest => s ++ '.' :: joinSegs rest

/-- The object stored under `k`, or a fresh empty object — the container a
re-nesting assignment descends into. -/
def subObjFields (fields : List (Str × JVal)) (k : Str) : List (Str × JVal) :=
  match lookupField fields k with
  | some (.vobj fs) => fs
  | _ => []

/-- Modelled from the spec: re-nesting one flattened entry — follow the
path segments through nested objects, creating them as needed, and assign
the leaf value at the last segment. -/
def setPath (fields : List (Str × JVal)) : List Str → JVal → List (Str × JVal)
  | [], _ => fields
  | [k], v => setField fields k v
  | k :: k2 :: rest, v =>
    setField fields k (JVal.vobj (setPath (subObjFields fields k) (k2 :: rest) v))

/-- Modelled from the spec: re-nesting a flattened document — split every
dot-path on `.` and reassign the leaf values into a fresh document. -/
def unflattenPairs (pairs : List (Str × JVal)) : JVal :=
  JVal.vobj (pairs.foldl (fun acc pv => setPath acc (splitDot pv.1) pv.2) [])

/-- Flattening at the level of segment paths: the semantic contents of a
document as (segment list, leaf value) pairs. -/
def segPairsF : List (Str × JVal) → List (List Str × JVal)
  | [] => []
  | (k, JVal.vnull) :: rest => ([k], JVal.vnull) :: segPairsF rest
  | (k, JVal.vleaf s) :: rest => ([k], JVal.vleaf s) :: segPairsF rest
  | (k, JVal.vobj fs) :: rest =>
    (segPairsF fs).map (fun qv => (k :: qv.1, qv.2)) ++ segPairsF rest
  | (k, JVal.varr es) :: rest => ([k], JVal.varr es) :: segPairsF rest

mutual
/-- A value built from leaves and nested objects only (no arrays), as in
the round-trip property's hypothesis. -/
def objLeafOnlyV : JVal → Bool
  | .vobj fs => objLeafOnlyF fs
  | .varr _ => false
  | _ => true

/-- The `objLeafOnlyV` check over object fields. -/
def objLeafOnlyF : List (Str × JVal) → Bool
  | [] => true
  | (_, v) :: rest => objLeafOnlyV v && objLeafOnlyF rest
end

mutual
/-- Round-trip-clean value: leaves and non-empty objects of clean fields. -/
def cleanVal : JVal → Bool
  | .vobj fs => !fs.isEmpty && cleanFields fs
  | .varr _ => false
  | _ => true

/-- Round-trip-clean fields: every key non-empty, dot-free and unique, and
every value clean. -/
def cleanFields : List (Str × JVal) → Bool
  | [] => true
  | (k, v) :: rest =>
    !k.isEmpty && !k.contains '.' && !containsKey rest k
      && cleanVal v && cleanFields rest
end

/-- One re-nesting step at the segment level. -/
def segStep (acc : List (Str × JVal)) (qv : List Str × JVal) : List (Str × JVal) :=
  setPath acc qv.1 qv.2

/-- First argument of a call, as the resolver classifies it: a string
literal or anything else. -/
inductive Arg where
  | lit : Str → Arg
  | nonLit : Arg
deriving DecidableEq

/-- Shape of one syntactic reference to a bound translator name, as
`findUsagesRecursive` classifies the reference's surroundings:
a direct (or rich property-access) call with the given argument list;
a bare positional argument of some other call; a property value inside an
object-literal argument (with the property's name and whether the
reference is the property's initializer); or anything else (ignored). -/
inductive RefShape where
  | directCall : List Arg → RefShape
  | argOfCall : Nat → Nat → RefShape
  | propOfObjArg : Nat → Nat → Str → Bool → RefShape
deriving DecidableEq

/-- One element of an object binding pattern: its matched property name
(`getPropertyNameNode()?.getText() || getName()`) and its own node id. -/
structure BindElem where
  propName : Str
  declId : Nat
deriving DecidableEq

/-- A parameter declaration: its node id, and when destructured with an
object binding pattern, the pattern's elements. -/
structure ParamDecl where
  declId : Nat
  pattern : Option (List BindElem)
deriving DecidableEq

/-- Resolution of a call's callee symbol, after the one-hop import-alias
step: a function-like declaration (function/arrow/method/function
expression, or a variable initialized with one) with its parameter list,
or anything else (ignored). -/
inductive CalleeRes where
  | fnLike : List ParamDecl → CalleeRes
  | notFn : CalleeRes
deriving DecidableEq

/-- The syntax-tree/symbol provider's view of a project: the references of
every declaration node (variable declarations, parameters, binding
elements) by node id, and the callee resolution of every call expression
by call id. -/
structure World where
  decls : List (Nat × List RefShape)
  calls : List (Nat × CalleeRes)

/-- Dynamic usage records pushed by the resolver. -/
inductive DynRec where
  | dynNamespace : DynRec
  | dynKey : Str → DynRec
deriving DecidableEq

/-- The resolver's accumulated state: the used-key set (a JS `Set`, i.e. an
insertion-ordered duplicate-free list) and the dynamic-usage list. -/
structure RState where
  usedKeys : List Str
  dynamicUsages : List DynRec
deriving DecidableEq

/-- Key qualification of the source:
`namespace ? namespace + "." + literal : literal` (an empty namespace
string is falsy; any other namespace — the sentinel "default" included —
is prefixed). -/
def mkKey (ns k : Str) : Str := if ns = [] then k else ns ++ '.' :: k

/-- Insertion `usedKeys.add(fullKey)` on a JS `Set`. -/
def addKey (st : RState) (k : Str) : RState :=
  if k ∈ st.usedKeys then st else { st with usedKeys := st.usedKeys ++ [k] }

/-- The push `dynamicUsages.push(...)`. -/
def addDyn (st : RState) (d : DynRec) : RState :=
  { st with dynamicUsages := st.dynamicUsages ++ [d] }

/-- Association-list lookup by node/call id. -/
def lookupId {α : Type} : List (Nat × α) → Nat → Option α
  | [], _ => none
  | (i, a) :: rest, n => if i = n then some a else lookupId rest n

mutual
/-- The `findUsagesRecursive` walk: skip already-visited nodes, mark the node
visited, bail out on non-declaration nodes (no reference list), otherwise
process every reference of the declaration.  Fuel only bounds the
recursion depth; `claim_C6_resolver_terminates` shows enough fuel always
exists. -/
def findUsagesF (w : World) (fuel : Nat) (id : Nat) (ns : Str)
    (visited : List Nat) (st : RState) : Option (List Nat × RState) :=
  if id ∈ visited then some (visited, st)
  else
    match lookupId w.decls id with
    | none => some (visited ++ [id], st)
    | some refs => processRefs w fuel refs ns (visited ++ [id]) st
termination_by (fuel, 4, 0)

/-- The reference loop of `findUsagesRecursive`. -/
def processRefs (w : World) (fuel : Nat) (rs : List RefShape) (ns : Str)
    (visited : List Nat) (st : RState) : Option (List Nat × RState) :=
  match rs with
  | [] => some (visited, st)
  | r :: rest =>
    match processRef w fuel r ns visited st with
    | none => none
    | some (v2, st2) => processRefs w fuel rest ns v2 st2
termination_by (fuel, 3, rs.length)

/-- One reference: a direct/rich call consumes its first argument (string
literal key, or a dynamic-usage record); a bare argument or a qualifying
object-literal property forwards into the callee; everything else is
ignored. -/
def processRef (w : World) (fuel : Nat) (r : RefShape) (ns : Str)
    (visited : List Nat) (st : RState) : Option (List Nat × RState) :=
  match r with
  | .directCall args =>
    match args with
    | Arg.lit k :: _ => some (visited, addKey st (mkKey ns k))
    | _ => some (visited, addDyn st (DynRec.dynKey ns))
  | .argOfCall callId argIndex =>
    handleArg w fuel callId argIndex ns visited st none
  | .propOfObjArg callId argIndex propName isInit =>
    if propName = chars ("t") ∨ isInit = true then
      handleArg w fuel callId argIndex ns visited st (some propName)
    else some (visited, st)
termination_by (fuel, 2, 0)

/-- The `handleArgumentPassing` step: resolve the callee; for a function-like
declaration with enough parameters, recurse into the positional parameter,
or — in the destructured case — into every pattern element whose property
name matches.  The namespace is passed through unchanged. -/
def handleArg (w : World) (fuel : Nat) (callId argIndex : Nat) (ns : Str)
    (visited : List Nat) (st : RState) (destructured : Option Str) :
    Option (List Nat × RState) :=
  match lookupId w.calls callId with
  | some (CalleeRes.fnLike params) =>
    match params[argIndex]? with
    | some param =>
      match destructured with
      | some p =>
        match param.pattern with
        | some elems =>
          processElems w fuel (elems.filter (fun e => e.propName = p)) ns visited st
        | none => some (visited, st)
      | none =>
        match fuel with
        | 0 => none
        | f + 1 => findUsagesF w f param.declId ns visited st
    | none => some (visited, st)
  | _ => some (visited, st)
termination_by (fuel, 1, 0)

/-- The element loop of the destructured-forwarding case. -/
def processElems (w : World) (fuel : Nat) (es : List BindElem) (ns : Str)
    (visited : List Nat) (st : RState) : Option (List Nat × RState) :=
  match es with
  | [] => some (visited, st)
  | e :: rest =>
    match fuel with
    | 0 => none
    | f + 1 =>
      match findUsagesF w f e.declId ns visited st with
      | none => none
      | some (v2, st2) => processElems w (f + 1) rest ns v2 st2
termination_by (fuel, 0, es.length)
end

/-- A `useTranslations(...)` call site: its argument list and the node id
of the enclosing variable declaration, when the call is one's initializer. -/
structure HookCall where
  args : List Arg
  varDeclId : Option Nat

/-- A source file as the main loop sees it: whether it has a named import
of `useTranslations` from `next-intl`, and its hook call sites. -/
structure SrcFile where
  importsHook : Bool
  hookCalls : List HookCall

/-- The per-hook-call step of `main`: zero arguments give the namespace
"default"; a string-literal argument gives that literal; a non-literal
argument records a dynamic usage and creates no binding; then the
enclosing variable declaration (if any) is resolved with a fresh visited
set. -/
def processHookCall (w : World) (fuel : Nat) (st : RState) (hc : HookCall) :
    Option RState :=
  match hc.args with
  | Arg.nonLit :: _ => some (addDyn st DynRec.dynNamespace)
  | args =>
    let ns : Str :=
      match args with
      | Arg.lit s :: _ => s
      | _ => chars ("default")
    match hc.varDeclId with
    | some d =>
      match findUsagesF w fuel d ns [] st with
      | none => none
      | some (_, st2) => some st2
    | none => some st

/-- The hook-call loop of `main` within one file. -/
def processHookCalls (w : World) (fuel : Nat) :
    List HookCall → RState → Option RState
  | [], st => some st
  | hc :: rest, st =>
    match processHookCall w fuel st hc with
    | none => none
    | some st2 => processHookCalls w fuel rest st2

/-- One source file: files that do not import the hook are skipped. -/
def processFile (w : World) (fuel : Nat) (st : RState) (f : SrcFile) :
    Option RState :=
  if f.importsHook then processHookCalls w fuel f.hookCalls st else some st

/-- The full resolver pass of `main` over all source files. -/
def runResolver (w : World) (fuel : Nat) :
    List SrcFile → RState → Option RState
  | [], st => some st
  | f :: rest, st =>
    match processFile w fuel st f with
    | none => none
    | some st2 => runResolver w fuel rest st2

/-- The world of the C1 counterexample: one variable declaration (node 0)
holding the translator, with a single reference that is a direct call
`t("greeting")`. -/
def exWorldC1 : World :=
  ⟨[(0, [RefShape.directCall [Arg.lit (chars ("greeting"))]])], []⟩

/-- The file of the C1 counterexample: imports the hook and has one
zero-argument hook call bound to node 0. -/
def exFileC1 : SrcFile := ⟨true, [⟨[], some 0⟩]⟩

/-- The node ids that carry reference lists. -/
def declIds (w : World) : List Nat := w.decls.map Prod.fst

/-- How many declaration nodes are not yet in the visited set — the
resolver's termination measure. -/
def unvisitedCount (w : World) (visited : List Nat) : Nat :=
  ((declIds w).filter (fun i => decide (i ∉ visited))).length

/-- The world of the C6 witness: a translator bound at node 0 is forwarded
into the call with id 100, whose callee's parameter (node 1) is forwarded
straight back into the same call — a cyclic forwarding graph — and also
used directly. -/
def exWorldC6 : World :=
  ⟨[(0, [RefShape.argOfCall 100 0]),
    (1, [RefShape.argOfCall 100 0, RefShape.directCall [Arg.lit (chars ("x"))]])],
   [(100, CalleeRes.fnLike [⟨1, none⟩])]⟩

/-- The world of the C7 witness: the translator at node 0 is forwarded
positionally through two function hops (calls 100 and 101, parameters 1
and 2) before being invoked with the literal "x". -/
def exWorldC7 : World :=
  ⟨[(0, [RefShape.argOfCall 100 0]),
    (1, [RefShape.argOfCall 101 0]),
    (2, [RefShape.directCall [Arg.lit (chars ("x"))]])],
   [(100, CalleeRes.fnLike [⟨1, none⟩]), (101, CalleeRes.fnLike [⟨2, none⟩])]⟩

/-- What the file system yields for the canonical key document: missing
file, unparsable content, or a parsed JSON object. -/
inductive FileResult where
  | absent : FileResult
  | unparsable : FileResult
  | parsed : List (Str × JVal) → FileResult

/-- The `loadMessages` loader of `core.ts`: a missing file returns an empty set; a
`JSON.parse` failure is caught and returns an empty set; otherwise the
parsed document's flattened dot-paths.  The mtime-keyed cache returns the
same value as a fresh load (all racers compute the same set) and is not
modelled. -/
def loadMessages : FileResult → Finset Str
  | .absent => ∅
  | .unparsable => ∅
  | .parsed doc => (flattenFields [] doc).toFinset

/-- Outcome of the CLI front half: aborted via `process.exit` before the
code analysis, or completed with the resolver's output. -/
inductive CliOutcome where
  | abortedEarly : Nat → CliOutcome
  | completed : Option RState → CliOutcome
deriving DecidableEq

/-- Steps 1–2 of the CLI `main`: load the defined keys and exit with code 1
when none were found, otherwise run the resolver over the source files. -/
def runCli (file : FileResult) (w : World) (fuel : Nat)
    (files : List SrcFile) : CliOutcome :=
  let allDefinedKeys := loadMessages file
  if allDefinedKeys.card = 0 then .abortedEarly 1
  else .completed (runResolver w fuel files ⟨[], []⟩)

/-- An argument expression as the `no-dynamic-keys` rule classifies it:
an ESTree `Literal` whose value is a string, a `Literal` whose value is
not a string (number, boolean, …), or a non-literal expression (template
literal, identifier, conditional, concatenation, …). -/
inductive EArg where
  | strLiteral : Str → EArg
  | otherLiteral : EArg
  | nonLiteral : EArg
deriving DecidableEq

/-- The check `arg.type === "Literal" && typeof arg.value === "string"`. -/
def isStringLiteralArg : EArg → Bool
  | .strLiteral _ => true
  | _ => false

/-- One reference to the translator variable, as the rule classifies it:
the callee of a call expression with the given arguments, or any other
occurrence (which the rule skips). -/
inductive ERef where
  | calleeOf : List EArg → ERef
  | otherRef : ERef

/-- Diagnostics the `no-dynamic-keys` rule emits for one reference: a call
with at least one argument is reported exactly when the first argument is
not a string literal; a call with no arguments is never reported. -/
def dynReportsForRef : ERef → Nat
  | .calleeOf [] => 0
  | .calleeOf (a :: _) => if isStringLiteralArg a then 0 else 1
  | .otherRef => 0

/-- A `VariableDeclarator` as the rule visits it: whether its initializer
is a `useTranslations(...)` call, and the references of the declared
variable. -/
structure EDeclarator where
  initIsHookCall : Bool
  refs : List ERef

/-- Total diagnostics of the `no-dynamic-keys` rule for one declarator. -/
def noDynamicKeysReports (d : EDeclarator) : Nat :=
  if d.initIsHookCall then (d.refs.map dynReportsForRef).sum else 0

/-- A `VariableDeclarator` whose initializer is a `useTranslations(...)`
call, as the `no-missing-keys` rule visits it: the call's first argument
(when there is one) and the references of the declared variable.  Argument
and reference shapes are shared with the `no-dynamic-keys` model. -/
structure MDeclarator where
  initArg : Option EArg
  refs : List ERef

/-- Namespace extraction of the `no-missing-keys` rule: `namespace` starts
as the empty string and is overwritten only by a string-literal first
argument — a non-literal (or non-string literal) argument silently leaves
it empty, and no dynamic-usage record exists anywhere on this path. -/
def ruleNamespace (initArg : Option EArg) : Str :=
  match initArg with
  | some (EArg.strLiteral s) => s
  | _ => []

/-- Missing-key reports of the `no-missing-keys` rule for one reference: a
call whose first argument is a string literal `k` computes
`fullKey = namespace ? namespace + "." + k : k` and reports it exactly
when it is not in the defined-key set; every other reference is skipped. -/
def missingKeyReportsForRef (definedKeys : Finset Str) (ns : Str) : ERef → List Str
  | .calleeOf (EArg.strLiteral k :: _) =>
    if mkKey ns k ∈ definedKeys then [] else [mkKey ns k]
  | _ => []

/-- The reference loop of the `no-missing-keys` rule. -/
def missingKeyReportsForRefs (definedKeys : Finset Str) (ns : Str) :
    List ERef → List Str
  | [] => []
  | r :: rest =>
    missingKeyReportsForRef definedKeys ns r
      ++ missingKeyReportsForRefs definedKeys ns rest

/-- All missing-key reports of the `no-missing-keys` rule for one
declarator (the rule's lazily-loaded key set always evaluates to the same
set, so it is passed directly). -/
def noMissingKeysReports (definedKeys : Finset Str) (d : MDeclarator) : List Str :=
  missingKeyReportsForRefs definedKeys (ruleNamespace d.initArg) d.refs

/-- Enumeration `for … in` over an array visits exactly the decimal index keys, in
order: flattening the elements starting at index `i` agrees with flattening
the index-keyed object view. -/
theorem flattenElems_eq_indexFields (pre : Str) :
    ∀ (es : List JVal) (i : Nat),
      flattenElems pre i es = flattenFields pre (indexFields i es) := by
  intro es
  induction es with
  | nil => intro i; simp [flattenElems, indexFields, flattenFields]
  | cons v rest ih =>
    intro i
    simp only [flattenElems, indexFields, flattenFields, ih (i + 1)]

/-- C10: key flattening recurses into a property value exactly when it is a
non-null object (in the `typeof` sense): a `null` property and any other
leaf contribute their dot-path key directly, a nested object is traversed
under the extended prefix, and an array is traversed as a nested container
whose decimal indices become path segments. -/
theorem claim_C10_flatten_recursion :
    (∀ pre k rest,
        flattenFields pre ((k, JVal.vnull) :: rest)
          = joinKey pre k :: flattenFields pre rest)
    ∧ (∀ pre k s rest,
        flattenFields pre ((k, JVal.vleaf s) :: rest)
          = joinKey pre k :: flattenFields pre rest)
    ∧ (∀ pre k fs rest,
        flattenFields pre ((k, JVal.vobj fs) :: rest)
          = flattenFields (joinKey pre k) fs ++ flattenFields pre rest)
    ∧ (∀ pre k es rest,
        flattenFields pre ((k, JVal.varr es) :: rest)
          = flattenVal (joinKey pre k) (JVal.varr es) ++ flattenFields pre rest)
    ∧ (∀ pre es,
        flattenVal pre (JVal.varr es) = flattenFields pre (indexFields 0 es)) := by
  refine ⟨?_, ?_, ?_, ?_, ?_⟩
  · intro pre k rest
    simp [flattenFields, JVal.isContainer]
  · intro pre k s rest
    simp [flattenFields, JVal.isContainer]
  · intro pre k fs rest
    simp [flattenFields, JVal.isContainer, flattenVal]
  · intro pre k es rest
    simp [flattenFields, JVal.isContainer]
  · intro pre es
    simp [flattenVal, flattenElems_eq_indexFields]

/-- C2: for every pair of input sets the reconciler returns exactly
`missing = used − defined` and `unused = defined − used` (a pure function of
the two sets), and the two results are disjoint. -/
theorem claim_C2_reconcile_set_difference :
    ∀ (defined used : Finset Str),
      (reconcile defined used).1 = used \ defined
      ∧ (reconcile defined used).2 = defined \ used
      ∧ Disjoint (reconcile defined used).1 (reconcile defined used).2 := by
  intro defined used
  have h1 : (reconcile defined used).1 = used \ defined := by
    rw [reconcile, Finset.sdiff_eq_filter]
  have h2 : (reconcile defined used).2 = defined \ used := by
    rw [reconcile, Finset.sdiff_eq_filter]
  refine ⟨h1, h2, ?_⟩
  rw [h1, h2]
  exact disjoint_sdiff_sdiff

/-- C4 counterexample: in the document `{"a": {}}` the path `a.b` is not
present, yet `deleteKey` deletes the key `a` (the empty container is
reported as emptied, so the ancestor is pruned) and returns `true` — the
document is changed and the result is not "not emptied". -/
theorem claim_C4_counterexample :
    pathPresent [(chars ("a"), JVal.vobj [])] [chars ("a"), chars ("b")] = false
    ∧ deleteKey [(chars ("a"), JVal.vobj [])] [chars ("a"), chars ("b")] = ([], true)
    ∧ deleteKey [(chars ("a"), JVal.vobj [])] [chars ("a"), chars ("b")]
        ≠ ([(chars ("a"), JVal.vobj [])], false) := by
  refine ⟨by decide, by decide, by decide⟩

theorem wfFields_cons_iff (k : Str) (v : JVal) (rest : List (Str × JVal)) :
    wfFields ((k, v) :: rest) = true
      ↔ containsKey rest k = false ∧ wfVal v = true ∧ wfFields rest = true := by
  simp [wfFields, Bool.and_eq_true, and_assoc]

theorem contains_eq_isSome_lookup (f : List (Str × JVal)) (k : Str) :
    containsKey f k = (lookupField f k).isSome := by
  induction f with
  | nil => rfl
  | cons kv rest ih =>
    obtain ⟨k2, v⟩ := kv
    by_cases h : k2 = k <;> simp [containsKey, lookupField, h, ih]

theorem erase_of_lookup_none (f : List (Str × JVal)) (k : Str)
    (h : lookupField f k = none) : eraseField f k = f := by
  induction f with
  | nil => rfl
  | cons kv rest ih =>
    obtain ⟨k2, v⟩ := kv
    by_cases hk : k2 = k
    · simp [lookupField, hk] at h
    · simp only [lookupField, if_neg hk] at h
      simp [eraseField, hk, ih h]

theorem setField_of_lookup_some (f : List (Str × JVal)) (k : Str) (v : JVal)
    (h : lookupField f k = some v) : setField f k v = f := by
  induction f with
  | nil => simp [lookupField] at h
  | cons kv rest ih =>
    obtain ⟨k2, v2⟩ := kv
    by_cases hk : k2 = k
    · simp only [lookupField, if_pos hk, Option.some.injEq] at h
      simp [setField, hk, h]
    · simp only [lookupField, if_neg hk] at h
      simp [setField, hk, ih h]

theorem wfVal_of_lookup (f : List (Str × JVal)) (k : Str) (v : JVal)
    (hwf : wfFields f = true) (h : lookupField f k = some v) : wfVal v = true := by
  induction f with
  | nil => simp [lookupField] at h
  | cons kv rest ih =>
    obtain ⟨k2, v2⟩ := kv
    rw [wfFields_cons_iff] at hwf
    by_cases hk : k2 = k
    · simp only [lookupField, if_pos hk, Option.some.injEq] at h
      rw [← h]; exact hwf.2.1
    · simp only [lookupField, if_neg hk] at h
      exact ih hwf.2.2 h

theorem contains_erase (f : List (Str × JVal)) (k k2 : Str)
    (h : containsKey (eraseField f k) k2 = true) : containsKey f k2 = true := by
  induction f with
  | nil => simpa [eraseField] using h
  | cons kv rest ih =>
    obtain ⟨k3, v⟩ := kv
    by_cases hk : k3 = k
    · rw [eraseField, if_pos hk] at h
      simp [containsKey, h]
    · rw [eraseField, if_neg hk] at h
      rw [containsKey, Bool.or_eq_true] at h ⊢
      rcases h with h | h
      · exact Or.inl h
      · exact Or.inr (ih h)

theorem wf_erase (f : List (Str × JVal)) (k : Str)
    (hwf : wfFields f = true) : wfFields (eraseField f k) = true := by
  induction f with
  | nil => exact hwf
  | cons kv rest ih =>
    obtain ⟨k3, v⟩ := kv
    rw [wfFields_cons_iff] at hwf
    by_cases hk : k3 = k
    · rw [eraseField, if_pos hk]
      exact hwf.2.2
    · rw [eraseField, if_neg hk, wfFields_cons_iff]
      refine ⟨?_, hwf.2.1, ih hwf.2.2⟩
      cases hc : containsKey (eraseField rest k) k3 with
      | false => rfl
      | true => rw [contains_erase rest k k3 hc] at hwf; exact hwf.1

theorem lookup_erase_self (f : List (Str × JVal)) (k : Str)
    (hwf : wfFields f = true) : lookupField (eraseField f k) k = none := by
  induction f with
  | nil => rfl
  | cons kv rest ih =>
    obtain ⟨k3, v⟩ := kv
    rw [wfFields_cons_iff] at hwf
    by_cases hk : k3 = k
    · rw [eraseField, if_pos hk]
      have hcc : containsKey rest k = false := by rw [← hk]; exact hwf.1
      rw [contains_eq_isSome_lookup] at hcc
      exact Option.not_isSome_iff_eq_none.mp (by simp [hcc])
    · rw [eraseField, if_neg hk, lookupField, if_neg hk]
      exact ih hwf.2.2

theorem contains_set (f : List (Str × JVal)) (k : Str) (v : JVal) (k2 : Str)
    (h : containsKey f k = true) :
    containsKey (setField f k v) k2 = containsKey f k2 := by
  induction f with
  | nil => simp [containsKey] at h
  | cons kv rest ih =>
    obtain ⟨k3, v3⟩ := kv
    by_cases hk : k3 = k
    · rw [setField, if_pos hk, containsKey, containsKey, hk]
    · rw [containsKey, Bool.or_eq_true] at h
      rcases h with h | h
      · exact absurd (of_decide_eq_true h) hk
      · rw [setField, if_neg hk, containsKey, containsKey, ih h]

theorem wf_set (f : List (Str × JVal)) (k : Str) (v : JVal)
    (hwf : wfFields f = true) (hv : wfVal v = true) (hc : containsKey f k = true) :
    wfFields (setField f k v) = true := by
  induction f with
  | nil => simp [containsKey] at hc
  | cons kv rest ih =>
    obtain ⟨k3, v3⟩ := kv
    rw [wfFields_cons_iff] at hwf
    by_cases hk : k3 = k
    · rw [setField, if_pos hk, wfFields_cons_iff]
      refine ⟨?_, hv, hwf.2.2⟩
      rw [← hk]
      exact hwf.1
    · rw [containsKey, Bool.or_eq_true] at hc
      rcases hc with hc | hc
      · exact absurd (of_decide_eq_true hc) hk
      · rw [setField, if_neg hk, wfFields_cons_iff]
        refine ⟨?_, hwf.2.1, ih hwf.2.2 hc⟩
        rw [contains_set rest k v k3 hc]
        exact hwf.1

theorem lookup_set_self (f : List (Str × JVal)) (k : Str) (v : JVal) :
    lookupField (setField f k v) k = some v := by
  induction f with
  | nil => simp [setField, lookupField]
  | cons kv rest ih =>
    obtain ⟨k3, v3⟩ := kv
    by_cases hk : k3 = k
    · rw [setField, if_pos hk, lookupField, if_pos rfl]
    · rw [setField, if_neg hk, lookupField, if_neg hk]
      exact ih

theorem setField_ne_nil (f : List (Str × JVal)) (k : Str) (v : JVal) :
    setField f k v ≠ [] := by
  cases f with
  | nil => simp [setField]
  | cons kv rest =>
    obtain ⟨k3, v3⟩ := kv
    by_cases hk : k3 = k <;> simp [setField, hk]

theorem deleteKey_absent_noop (p : List Str) :
    ∀ (fields : List (Str × JVal)), wfFields fields = true → fields ≠ [] →
      pathPresent fields p = false → deleteKey fields p = (fields, false) := by
  induction p with
  | nil => intro fields _ _ _; rfl
  | cons k rest ih =>
    intro fields hwf hne hab
    cases rest with
    | nil =>
      rw [pathPresent] at hab
      have hlk : lookupField fields k = none := by
        cases hl : lookupField fields k with
        | none => rfl
        | some v => rw [hl] at hab; simp at hab
      rw [deleteKey]
      rw [erase_of_lookup_none fields k hlk]
      simp [List.isEmpty_iff, hne]
    | cons k2 rest2 =>
      rw [pathPresent] at hab
      rw [deleteKey]
      cases hl : lookupField fields k with
      | none => simp
      | some v =>
        cases v with
        | vnull => simp
        | vleaf s => simp
        | varr es => simp
        | vobj fs =>
          rw [hl] at hab
          simp only
          have hv := wfVal_of_lookup fields k (JVal.vobj fs) hwf hl
          rw [wfVal, Bool.and_eq_true] at hv
          have hfsne : fs ≠ [] := by
            intro hc
            rw [hc] at hv
            simp at hv
          have hrec := ih fs hv.2 hfsne hab
          rw [hrec]
          simp only [if_neg Bool.false_ne_true]
          rw [setField_of_lookup_some fields k (JVal.vobj fs) hl]

theorem deleteKey_preserves (p : List Str) :
    ∀ (fields : List (Str × JVal)), wfFields fields = true → fields ≠ [] →
      wfFields (deleteKey fields p).1 = true
      ∧ ((deleteKey fields p).2 = false → (deleteKey fields p).1 ≠ [])
      ∧ pathPresent (deleteKey fields p).1 p = false := by
  induction p with
  | nil =>
    intro fields hwf hne
    exact ⟨hwf, fun _ => hne, rfl⟩
  | cons k rest ih =>
    intro fields hwf hne
    cases rest with
    | nil =>
      rw [deleteKey]
      refine ⟨wf_erase fields k hwf, ?_, ?_⟩
      · intro hb
        simpa [List.isEmpty_iff] using hb
      · rw [pathPresent, lookup_erase_self fields k hwf]
        rfl
    | cons k2 rest2 =>
      cases hl : lookupField fields k with
      | none =>
        have hres : deleteKey fields (k :: k2 :: rest2) = (fields, false) := by
          rw [deleteKey, hl]
        rw [hres]
        exact ⟨hwf, fun _ => hne, by rw [pathPresent, hl]⟩
      | some v =>
        cases v with
        | vnull =>
          have hres : deleteKey fields (k :: k2 :: rest2) = (fields, false) := by
            rw [deleteKey, hl]
          rw [hres]
          exact ⟨hwf, fun _ => hne, by rw [pathPresent, hl]⟩
        | vleaf s =>
          have hres : deleteKey fields (k :: k2 :: rest2) = (fields, false) := by
            rw [deleteKey, hl]
          rw [hres]
          exact ⟨hwf, fun _ => hne, by rw [pathPresent, hl]⟩
        | varr es =>
          have hres : deleteKey fields (k :: k2 :: rest2) = (fields, false) := by
            rw [deleteKey, hl]
          rw [hres]
          exact ⟨hwf, fun _ => hne, by rw [pathPresent, hl]⟩
        | vobj fs =>
          have hv := wfVal_of_lookup fields k (JVal.vobj fs) hwf hl
          rw [wfVal, Bool.and_eq_true] at hv
          have hfsne : fs ≠ [] := by
            intro hc
            rw [hc] at hv
            simp at hv
          obtain ⟨ihwf, ihne, ihab⟩ := ih fs hv.2 hfsne
          by_cases hb : (deleteKey fs (k2 :: rest2)).2 = true
          · have hres : deleteKey fields (k :: k2 :: rest2)
                = (eraseField fields k, (eraseField fields k).isEmpty) := by
              rw [deleteKey, hl]
              simp only [if_pos hb]
            rw [hres]
            refine ⟨wf_erase fields k hwf, ?_, ?_⟩
            · intro hbb
              simpa [List.isEmpty_iff] using hbb
            · show pathPresent (eraseField fields k) (k :: k2 :: rest2) = false
              rw [pathPresent, lookup_erase_self fields k hwf]
          · have hb2 : (deleteKey fs (k2 :: rest2)).2 = false :=
              (Bool.not_eq_true _) ▸ hb
            have hres : deleteKey fields (k :: k2 :: rest2)
                = (setField fields k (JVal.vobj (deleteKey fs (k2 :: rest2)).1), false) := by
              rw [deleteKey, hl]
              simp only [if_neg hb]
            rw [hres]
            have hcc : containsKey fields k = true := by
              rw [contains_eq_isSome_lookup, hl]
              rfl
            have hwfsub : wfVal (JVal.vobj (deleteKey fs (k2 :: rest2)).1) = true := by
              rw [wfVal, Bool.and_eq_true]
              refine ⟨?_, ihwf⟩
              simpa [List.isEmpty_iff] using ihne hb2
            refine ⟨wf_set fields k _ hwf hwfsub hcc, fun _ => setField_ne_nil _ _ _, ?_⟩
            show pathPresent (setField fields k (JVal.vobj (deleteKey fs (k2 :: rest2)).1))
                (k :: k2 :: rest2) = false
            rw [pathPresent, lookup_set_self]
            exact ihab

/-- C4 (amended): for documents that are genuine JSON objects with
non-empty containers — unique keys at every level, no arrays, every nested
object non-empty and a non-empty root — deleting a dot-path that is not
present leaves the document unchanged and returns "not emptied" (`false`);
moreover, as long as a deletion does not empty the root object, repeating
the same deletion is a no-op returning `false`.  Without the non-emptiness
conditions the statement is false (`claim_C4_counterexample`): an empty
container on the probed path is itself pruned and reported as emptied. -/
theorem claim_C4_delete_absent_noop :
    ∀ (fields : List (Str × JVal)) (p : List Str), wfFields fields = true →
      (fields ≠ [] → pathPresent fields p = false →
        deleteKey fields p = (fields, false))
      ∧ ((deleteKey fields p).1 ≠ [] →
        deleteKey (deleteKey fields p).1 p = ((deleteKey fields p).1, false)) := by
  intro fields p hwf
  constructor
  · intro hne hab
    exact deleteKey_absent_noop p fields hwf hne hab
  · intro hne
    by_cases hroot : fields = []
    · obtain ⟨hw1, hp1⟩ : wfFields (deleteKey fields p).1 = true
          ∧ pathPresent (deleteKey fields p).1 p = false := by
        rw [hroot]
        cases p with
        | nil => exact ⟨rfl, rfl⟩
        | cons k rest =>
          cases rest with
          | nil => exact ⟨rfl, rfl⟩
          | cons k2 rest2 => exact ⟨rfl, rfl⟩
      exact deleteKey_absent_noop p (deleteKey fields p).1 hw1 hne hp1
    · obtain ⟨hw1, _, hp1⟩ := deleteKey_preserves p fields hwf hroot
      exact deleteKey_absent_noop p (deleteKey fields p).1 hw1 hne hp1

/-- C4 witness: deleting the absent path `c` from `{"a": "x"}` leaves the
document unchanged and returns `false`. -/
theorem claim_C4_delete_absent_noop_witness :
    deleteKey [(chars ("a"), JVal.vleaf (chars ("x")))] [chars ("c")]
      = ([(chars ("a"), JVal.vleaf (chars ("x")))], false) :=
  (claim_C4_delete_absent_noop [(chars ("a"), JVal.vleaf (chars ("x")))]
      [chars ("c")] (by decide)).1 (by decide) (by decide)

/-- C3 counterexample: the document `{"a": {}}` contains only leaf and
nested-object values, yet flattening it yields no dot-paths at all (the
empty container produces no leaves), so re-nesting reconstructs the empty
document, not the original. -/
theorem claim_C3_counterexample :
    objLeafOnlyF [(chars ("a"), JVal.vobj [])] = true
    ∧ flattenFields [] [(chars ("a"), JVal.vobj [])] = []
    ∧ unflattenPairs (flattenPairsF [] [(chars ("a"), JVal.vobj [])])
        ≠ JVal.vobj [(chars ("a"), JVal.vobj [])] := by
  refine ⟨by decide, by decide, by decide⟩

theorem splitDot_ne_nil (s : Str) : splitDot s ≠ [] := by
  induction s with
  | nil => simp [splitDot]
  | cons c rest ih =>
    rw [splitDot]
    cases h : splitDot rest with
    | nil => exact absurd h ih
    | cons p ps => by_cases hc : c = '.' <;> simp [hc]

theorem splitDot_noDot (k : Str) (h : k.contains '.' = false) :
    splitDot k = [k] := by
  induction k with
  | nil => rfl
  | cons c rest ih =>
    rw [List.contains_cons, Bool.or_eq_false_iff] at h
    have hc : ¬(c = '.') := by
      intro hcc
      rw [hcc] at h
      simp at h
    rw [splitDot, ih h.2]
    simp [hc]

theorem splitDot_append_dot (k b : Str) (h : k.contains '.' = false) :
    splitDot (k ++ '.' :: b) = k :: splitDot b := by
  induction k with
  | nil =>
    rw [List.nil_append, splitDot]
    cases hs : splitDot b with
    | nil => exact absurd hs (splitDot_ne_nil b)
    | cons p ps => simp
  | cons c rest ih =>
    rw [List.contains_cons, Bool.or_eq_false_iff] at h
    have hc : ¬(c = '.') := by
      intro hcc
      rw [hcc] at h
      simp at h
    rw [List.cons_append, splitDot, ih h.2]
    simp [hc]

theorem splitDot_joinSegs (segs : List Str) (hne : segs ≠ [])
    (h : ∀ s ∈ segs, s.contains '.' = false) :
    splitDot (joinSegs segs) = segs := by
  induction segs with
  | nil => exact absurd rfl hne
  | cons s rest ih =>
    cases rest with
    | nil =>
      rw [joinSegs]
      exact splitDot_noDot s (h s (by simp))
    | cons s2 rest2 =>
      rw [joinSegs, splitDot_append_dot s _ (h s (by simp))]
      rw [ih (List.cons_ne_nil s2 rest2) (fun x hx => h x (List.mem_cons_of_mem s hx))]
      exact fun hxx => List.noConfusion hxx

theorem joinSegs_ne_nil (segs : List Str) (hne : segs ≠ [])
    (h : ∀ s ∈ segs, s ≠ []) : joinSegs segs ≠ [] := by
  cases segs with
  | nil => exact absurd rfl hne
  | cons s rest =>
    cases rest with
    | nil => exact h s (List.mem_singleton.mpr rfl)
    | cons s2 rest2 =>
      rw [joinSegs]
      · simp
      · exact fun hxx => List.noConfusion hxx

theorem joinSegs_append_last (s : Str) (rest : List Str) (k : Str) :
    joinSegs (s :: rest) ++ '.' :: k = joinSegs (s :: (rest ++ [k])) := by
  induction rest generalizing s with
  | nil => rfl
  | cons r rs ih =>
    have h1 : joinSegs (s :: r :: rs) = s ++ '.' :: joinSegs (r :: rs) := rfl
    have h2 : joinSegs (s :: r :: (rs ++ [k]))
        = s ++ '.' :: joinSegs (r :: (rs ++ [k])) := rfl
    rw [List.cons_append, h1, h2, ← ih r, List.append_assoc, List.cons_append]

theorem joinKey_joinSegs (segs : List Str) (k : Str)
    (h : ∀ s ∈ segs, s ≠ []) :
    joinKey (joinSegs segs) k = joinSegs (segs ++ [k]) := by
  cases segs with
  | nil => rfl
  | cons s rest =>
    rw [joinKey, if_neg (joinSegs_ne_nil (s :: rest) (by simp) h)]
    rw [joinSegs_append_last, List.cons_append]

theorem cleanFields_cons_iff (k : Str) (v : JVal) (rest : List (Str × JVal)) :
    cleanFields ((k, v) :: rest) = true
      ↔ k ≠ [] ∧ k.contains '.' = false ∧ containsKey rest k = false
        ∧ cleanVal v = true ∧ cleanFields rest = true := by
  simp [cleanFields, Bool.and_eq_true, and_assoc, List.isEmpty_iff]

theorem contains_append (a b : List (Str × JVal)) (k : Str) :
    containsKey (a ++ b) k = (containsKey a k || containsKey b k) := by
  induction a with
  | nil => simp [containsKey]
  | cons kv rest ih =>
    obtain ⟨k2, v⟩ := kv
    rw [List.cons_append, containsKey, containsKey, ih, Bool.or_assoc]

theorem lookup_of_not_contains (a : List (Str × JVal)) (k : Str)
    (h : containsKey a k = false) : lookupField a k = none := by
  rw [contains_eq_isSome_lookup] at h
  exact Option.not_isSome_iff_eq_none.mp (by simp [h])

theorem lookup_append_left_none (a b : List (Str × JVal)) (k : Str)
    (h : containsKey a k = false) : lookupField (a ++ b) k = lookupField b k := by
  induction a with
  | nil => rfl
  | cons kv rest ih =>
    obtain ⟨k2, v⟩ := kv
    rw [containsKey, Bool.or_eq_false_iff] at h
    have hk : ¬(k2 = k) := by
      intro hc
      rw [hc] at h
      simp at h
    rw [List.cons_append, lookupField, if_neg hk]
    exact ih h.2

theorem setField_absent_append (a : List (Str × JVal)) (k : Str) (v : JVal)
    (h : containsKey a k = false) : setField a k v = a ++ [(k, v)] := by
  induction a with
  | nil => rfl
  | cons kv rest ih =>
    obtain ⟨k2, v2⟩ := kv
    rw [containsKey, Bool.or_eq_false_iff] at h
    have hk : ¬(k2 = k) := by
      intro hc
      rw [hc] at h
      simp at h
    rw [setField, if_neg hk, List.cons_append, ih h.2]

theorem setField_append_last (a : List (Str × JVal)) (k : Str) (w v : JVal)
    (h : containsKey a k = false) :
    setField (a ++ [(k, w)]) k v = a ++ [(k, v)] := by
  induction a with
  | nil => simp [setField]
  | cons kv rest ih =>
    obtain ⟨k2, v2⟩ := kv
    rw [containsKey, Bool.or_eq_false_iff] at h
    have hk : ¬(k2 = k) := by
      intro hc
      rw [hc] at h
      simp at h
    rw [List.cons_append, setField, if_neg hk, ih h.2, List.cons_append]

theorem ne_of_not_contains (l : List (Str × JVal)) (k : Str)
    (h : containsKey l k = false) : ∀ kv ∈ l, kv.1 ≠ k := by
  induction l with
  | nil => intro kv hkv; simp at hkv
  | cons kv2 rest ih =>
    intro kv hkv
    obtain ⟨k2, v2⟩ := kv2
    rw [containsKey, Bool.or_eq_false_iff] at h
    rcases List.mem_cons.mp hkv with hkv | hkv
    · rw [hkv]
      intro hc
      have hc2 : k2 = k := hc
      rw [hc2] at h
      simp at h
    · exact ih h.2 kv hkv

theorem setPath_absent (acc : List (Str × JVal)) (k : Str) (q : List Str)
    (v : JVal) (hk : containsKey acc k = false) (hq : q ≠ []) :
    setPath acc (k :: q) v = acc ++ [(k, JVal.vobj (setPath [] q v))] := by
  cases q with
  | nil => exact absurd rfl hq
  | cons q1 qs =>
    rw [setPath]
    have hsub : subObjFields acc k = [] := by
      rw [subObjFields, lookup_of_not_contains acc k hk]
    rw [hsub, setField_absent_append acc k _ hk]

theorem foldl_segStep_under (pairs : List (List Str × JVal)) :
    ∀ (acc : List (Str × JVal)) (k : Str) (s : List (Str × JVal)),
      containsKey acc k = false → (∀ qv ∈ pairs, qv.1 ≠ []) →
      List.foldl segStep (acc ++ [(k, JVal.vobj s)])
          (pairs.map (fun qv => (k :: qv.1, qv.2)))
        = acc ++ [(k, JVal.vobj (List.foldl segStep s pairs))] := by
  induction pairs with
  | nil => intro acc k s _ _; rfl
  | cons qv rest ih =>
    intro acc k s hk hne
    obtain ⟨q, v⟩ := qv
    have hq : q ≠ [] := hne (q, v) (by simp)
    cases q with
    | nil => exact absurd rfl hq
    | cons q1 qs =>
      rw [List.map_cons, List.foldl_cons]
      have hstep : segStep (acc ++ [(k, JVal.vobj s)]) (k :: q1 :: qs, v)
          = acc ++ [(k, JVal.vobj (setPath s (q1 :: qs) v))] := by
        rw [segStep]
        simp only
        rw [setPath]
        have hsub : subObjFields (acc ++ [(k, JVal.vobj s)]) k = s := by
          rw [subObjFields, lookup_append_left_none acc _ k hk]
          rw [lookupField, if_pos rfl]
        rw [hsub, setField_append_last acc k _ _ hk]
      rw [hstep]
      rw [ih acc k (setPath s (q1 :: qs) v) hk
        (fun x hx => hne x (List.mem_cons_of_mem _ hx))]
      rfl

theorem segPairsF_paths :
    ∀ (fields : List (Str × JVal)), cleanFields fields = true →
    ∀ qv ∈ segPairsF fields,
      qv.1 ≠ [] ∧ ∀ s ∈ qv.1, s ≠ [] ∧ List.contains s '.' = false := by
  intro fields
  induction fields using segPairsF.induct with
  | case1 => intro _ qv hqv; rw [segPairsF] at hqv; simp at hqv
  | case2 k rest ih =>
    intro hc qv hqv
    rw [cleanFields_cons_iff] at hc
    obtain ⟨hk1, hk2, _, hv, hrest⟩ := hc
    rw [segPairsF] at hqv
    rcases List.mem_cons.mp hqv with hqv | hqv
    · rw [hqv]
      refine ⟨by simp, ?_⟩
      intro s hs
      rw [List.mem_singleton] at hs
      rw [hs]
      exact ⟨hk1, hk2⟩
    · exact ih hrest qv hqv
  | case3 k s0 rest ih =>
    intro hc qv hqv
    rw [cleanFields_cons_iff] at hc
    obtain ⟨hk1, hk2, _, hv, hrest⟩ := hc
    rw [segPairsF] at hqv
    rcases List.mem_cons.mp hqv with hqv | hqv
    · rw [hqv]
      refine ⟨by simp, ?_⟩
      intro s hs
      rw [List.mem_singleton] at hs
      rw [hs]
      exact ⟨hk1, hk2⟩
    · exact ih hrest qv hqv
  | case4 k fs rest ihf ih =>
    intro hc qv hqv
    rw [cleanFields_cons_iff] at hc
    obtain ⟨hk1, hk2, _, hv, hrest⟩ := hc
    rw [cleanVal, Bool.and_eq_true] at hv
    rw [segPairsF] at hqv
    rcases List.mem_append.mp hqv with hqv | hqv
    · obtain ⟨qv0, hqv0, hqveq⟩ := List.mem_map.mp hqv
      obtain ⟨hq1, hq2⟩ := ihf hv.2 qv0 hqv0
      rw [← hqveq]
      refine ⟨by simp, ?_⟩
      intro s hs
      rcases List.mem_cons.mp hs with hs | hs
      · rw [hs]
        exact ⟨hk1, hk2⟩
      · exact hq2 s hs
    · exact ih hrest qv hqv
  | case5 k es rest ih =>
    intro hc qv hqv
    rw [cleanFields_cons_iff] at hc
    obtain ⟨hk1, hk2, _, hv, hrest⟩ := hc
    rw [cleanVal] at hv
    exact absurd hv (by simp)

theorem segPairsF_ne_nil :
    ∀ (fields : List (Str × JVal)), cleanFields fields = true →
      fields ≠ [] → segPairsF fields ≠ [] := by
  intro fields
  induction fields using segPairsF.induct with
  | case1 => intro _ h; exact absurd rfl h
  | case2 k rest ih => intro _ _; rw [segPairsF]; exact List.cons_ne_nil _ _
  | case3 k s0 rest ih => intro _ _; rw [segPairsF]; exact List.cons_ne_nil _ _
  | case4 k fs rest ihf ih =>
    intro hc _
    rw [cleanFields_cons_iff] at hc
    obtain ⟨_, _, _, hv, hrest⟩ := hc
    rw [cleanVal, Bool.and_eq_true] at hv
    have hfs : fs ≠ [] := by
      intro hnil
      rw [hnil] at hv
      simp at hv
    rw [segPairsF]
    intro happ
    rcases List.append_eq_nil.mp happ with ⟨hmap, _⟩
    exact ihf hv.2 hfs (List.map_eq_nil_iff.mp hmap)
  | case5 k es rest ih => intro _ _; rw [segPairsF]; exact List.cons_ne_nil _ _

theorem flattenPairsF_map_fst :
    ∀ (fields : List (Str × JVal)), cleanFields fields = true →
      ∀ pre, (flattenPairsF pre fields).map Prod.fst = flattenFields pre fields := by
  intro fields
  induction fields using segPairsF.induct with
  | case1 => intro _ pre; rfl
  | case2 k rest ih =>
    intro hc pre
    rw [cleanFields_cons_iff] at hc
    simp [flattenPairsF, flattenFields, JVal.isContainer, ih hc.2.2.2.2 pre]
  | case3 k s0 rest ih =>
    intro hc pre
    rw [cleanFields_cons_iff] at hc
    simp [flattenPairsF, flattenFields, JVal.isContainer, ih hc.2.2.2.2 pre]
  | case4 k fs rest ihf ih =>
    intro hc pre
    rw [cleanFields_cons_iff] at hc
    obtain ⟨_, _, _, hv, hrest⟩ := hc
    rw [cleanVal, Bool.and_eq_true] at hv
    simp [flattenPairsF, flattenFields, JVal.isContainer, flattenPairsV,
      flattenVal, ih hrest pre, ihf hv.2 (joinKey pre k)]
  | case5 k es rest ih =>
    intro hc pre
    rw [cleanFields_cons_iff] at hc
    obtain ⟨_, _, _, hv, _⟩ := hc
    rw [cleanVal] at hv
    exact absurd hv (by simp)

theorem flattenPairsF_eq_segPairs :
    ∀ (fields : List (Str × JVal)), cleanFields fields = true →
      ∀ (pre : List Str), (∀ s ∈ pre, s ≠ []) →
      flattenPairsF (joinSegs pre) fields
        = (segPairsF fields).map (fun qv => (joinSegs (pre ++ qv.1), qv.2)) := by
  intro fields
  induction fields using segPairsF.induct with
  | case1 => intro _ pre _; simp [flattenPairsF, segPairsF]
  | case2 k rest ih =>
    intro hc pre hpre
    rw [cleanFields_cons_iff] at hc
    rw [segPairsF, List.map_cons]
    simp only [flattenPairsF, JVal.isContainer, if_neg Bool.false_ne_true]
    rw [ih hc.2.2.2.2 pre hpre, joinKey_joinSegs pre k hpre]
    rfl
  | case3 k s0 rest ih =>
    intro hc pre hpre
    rw [cleanFields_cons_iff] at hc
    rw [segPairsF, List.map_cons]
    simp only [flattenPairsF, JVal.isContainer, if_neg Bool.false_ne_true]
    rw [ih hc.2.2.2.2 pre hpre, joinKey_joinSegs pre k hpre]
    rfl
  | case4 k fs rest ihf ih =>
    intro hc pre hpre
    rw [cleanFields_cons_iff] at hc
    obtain ⟨hk1, _, _, hv, hrest⟩ := hc
    rw [cleanVal, Bool.and_eq_true] at hv
    have hpre2 : ∀ s ∈ pre ++ [k], s ≠ [] := by
      intro s hs
      rcases List.mem_append.mp hs with hs | hs
      · exact hpre s hs
      · rw [List.mem_singleton] at hs
        rw [hs]
        exact hk1
    rw [segPairsF, List.map_append, List.map_map]
    simp only [flattenPairsF, JVal.isContainer, if_pos rfl, flattenPairsV]
    rw [ih hrest pre hpre, joinKey_joinSegs pre k hpre, ihf hv.2 (pre ++ [k]) hpre2]
    congr 1
    apply List.map_congr_left
    intro qv _
    simp only [Function.comp]
    rw [List.append_assoc]
    rfl
  | case5 k es rest ih =>
    intro hc pre hpre
    rw [cleanFields_cons_iff] at hc
    obtain ⟨_, _, _, hv, _⟩ := hc
    rw [cleanVal] at hv
    exact absurd hv (by simp)

theorem foldl_segStep_rebuild :
    ∀ (fields : List (Str × JVal)), cleanFields fields = true →
      ∀ (acc : List (Str × JVal)), (∀ kv ∈ fields, containsKey acc kv.1 = false) →
      List.foldl segStep acc (segPairsF fields) = acc ++ fields := by
  intro fields
  induction fields using segPairsF.induct with
  | case1 => intro _ acc _; simp [segPairsF]
  | case2 k rest ih =>
    intro hc acc hacc
    rw [cleanFields_cons_iff] at hc
    obtain ⟨_, _, hk3, _, hrest⟩ := hc
    rw [segPairsF, List.foldl_cons]
    have hk : containsKey acc k = false := hacc (k, JVal.vnull) (by simp)
    have hstep : segStep acc ([k], JVal.vnull) = acc ++ [(k, JVal.vnull)] := by
      rw [segStep]
      simp only
      rw [setPath, setField_absent_append acc k _ hk]
    rw [hstep, ih hrest (acc ++ [(k, JVal.vnull)]) ?hdisj, List.append_assoc]
    rfl
    case hdisj =>
      intro kv hkv
      rw [contains_append, Bool.or_eq_false_iff]
      refine ⟨hacc kv (List.mem_cons_of_mem _ hkv), ?_⟩
      have hne := ne_of_not_contains rest k hk3 kv hkv
      simp [containsKey]
      intro hcontra
      exact hne hcontra.symm
  | case3 k s0 rest ih =>
    intro hc acc hacc
    rw [cleanFields_cons_iff] at hc
    obtain ⟨_, _, hk3, _, hrest⟩ := hc
    rw [segPairsF, List.foldl_cons]
    have hk : containsKey acc k = false := hacc (k, JVal.vleaf s0) (by simp)
    have hstep : segStep acc ([k], JVal.vleaf s0) = acc ++ [(k, JVal.vleaf s0)] := by
      rw [segStep]
      simp only
      rw [setPath, setField_absent_append acc k _ hk]
    rw [hstep, ih hrest (acc ++ [(k, JVal.vleaf s0)]) ?hdisj, List.append_assoc]
    rfl
    case hdisj =>
      intro kv hkv
      rw [contains_append, Bool.or_eq_false_iff]
      refine ⟨hacc kv (List.mem_cons_of_mem _ hkv), ?_⟩
      have hne := ne_of_not_contains rest k hk3 kv hkv
      simp [containsKey]
      intro hcontra
      exact hne hcontra.symm
  | case4 k fs rest ihf ih =>
    intro hc acc hacc
    rw [cleanFields_cons_iff] at hc
    obtain ⟨_, _, hk3, hv, hrest⟩ := hc
    rw [cleanVal, Bool.and_eq_true] at hv
    have hfs : fs ≠ [] := by
      intro hnil
      rw [hnil] at hv
      simp at hv
    have hk : containsKey acc k = false := hacc (k, JVal.vobj fs) (by simp)
    rw [segPairsF, List.foldl_append]
    have hinner : List.foldl segStep acc
        ((segPairsF fs).map (fun qv => (k :: qv.1, qv.2)))
        = acc ++ [(k, JVal.vobj fs)] := by
      cases hseg : segPairsF fs with
      | nil => exact absurd hseg (segPairsF_ne_nil fs hv.2 hfs)
      | cons p0 ps =>
        have hpaths := segPairsF_paths fs hv.2
        rw [hseg] at hpaths
        have hp0 : p0.1 ≠ [] := (hpaths p0 (by simp)).1
        rw [List.map_cons, List.foldl_cons]
        have hstep0 : segStep acc (k :: p0.1, p0.2)
            = acc ++ [(k, JVal.vobj (segStep [] p0))] := by
          rw [segStep]
          simp only
          rw [setPath_absent acc k p0.1 p0.2 hk hp0]
          rfl
        rw [hstep0]
        rw [foldl_segStep_under ps acc k (segStep [] p0) hk
          (fun qv hqv => (hpaths qv (List.mem_cons_of_mem _ hqv)).1)]
        have hfold : List.foldl segStep (segStep [] p0) ps
            = List.foldl segStep [] (p0 :: ps) := by
          rw [List.foldl_cons]
        rw [hfold, ← hseg, ihf hv.2 [] (fun kv _ => rfl)]
        rfl
    rw [hinner, ih hrest (acc ++ [(k, JVal.vobj fs)]) ?hdisj, List.append_assoc]
    rfl
    case hdisj =>
      intro kv hkv
      rw [contains_append, Bool.or_eq_false_iff]
      refine ⟨hacc kv (List.mem_cons_of_mem _ hkv), ?_⟩
      have hne := ne_of_not_contains rest k hk3 kv hkv
      simp [containsKey]
      intro hcontra
      exact hne hcontra.symm
  | case5 k es rest ih =>
    intro hc acc hacc
    rw [cleanFields_cons_iff] at hc
    obtain ⟨_, _, _, hv, _⟩ := hc
    rw [cleanVal] at hv
    exact absurd hv (by simp)

/-- C3 (amended): for every document made of leaves and nested objects that
is well-formed in the JSON sense — unique keys per object — and whose keys
are non-empty and dot-free with every nested object non-empty, flattening
to dot-paths (the source's `flattenKeys` traversal, paired with the leaf
values it reaches) and re-nesting by splitting each path on `.` and
reassigning the leaf values reconstructs exactly the original document.
Without the extra key/non-emptiness conditions the round trip fails
(`claim_C3_counterexample`). -/
theorem claim_C3_flatten_roundtrip :
    ∀ (fields : List (Str × JVal)), cleanFields fields = true →
      (flattenPairsF [] fields).map Prod.fst = flattenFields [] fields
      ∧ unflattenPairs (flattenPairsF [] fields) = JVal.vobj fields := by
  intro fields hc
  refine ⟨flattenPairsF_map_fst fields hc [], ?_⟩
  have hseg : flattenPairsF [] fields
      = (segPairsF fields).map (fun qv => (joinSegs ([] ++ qv.1), qv.2)) :=
    flattenPairsF_eq_segPairs fields hc [] (by intro s hs; simp at hs)
  rw [unflattenPairs, hseg, List.foldl_map]
  congr 1
  refine Eq.trans (List.foldl_ext _ segStep [] ?_) ?_
  · intro a qv hqv
    obtain ⟨h1, h2⟩ := segPairsF_paths fields hc qv hqv
    show setPath a (splitDot (joinSegs ([] ++ qv.1))) qv.2 = segStep a qv
    rw [List.nil_append, splitDot_joinSegs qv.1 h1 (fun s hs => (h2 s hs).2)]
    rfl
  · exact foldl_segStep_rebuild fields hc [] (fun kv _ => rfl)

/-- C3 witness: the round trip at the concrete clean document
`{"a": "x", "b": {"c": null}}`. -/
theorem claim_C3_flatten_roundtrip_witness :
    (flattenPairsF []
        [(chars ("a"), JVal.vleaf (chars ("x"))),
         (chars ("b"), JVal.vobj [(chars ("c"), JVal.vnull)])]).map Prod.fst
      = flattenFields []
        [(chars ("a"), JVal.vleaf (chars ("x"))),
         (chars ("b"), JVal.vobj [(chars ("c"), JVal.vnull)])]
    ∧ unflattenPairs (flattenPairsF []
        [(chars ("a"), JVal.vleaf (chars ("x"))),
         (chars ("b"), JVal.vobj [(chars ("c"), JVal.vnull)])])
      = JVal.vobj
        [(chars ("a"), JVal.vleaf (chars ("x"))),
         (chars ("b"), JVal.vobj [(chars ("c"), JVal.vnull)])] :=
  claim_C3_flatten_roundtrip
    [(chars ("a"), JVal.vleaf (chars ("x"))),
     (chars ("b"), JVal.vobj [(chars ("c"), JVal.vnull)])] (by decide)

/-- C5 counterexample: in the `no-missing-keys` rule path, a hook call
whose single argument is not a string literal gets the empty namespace —
no dynamic usage record exists on this path — and the reference with the
literal key "k" IS checked against the defined-key set: with "k" undefined
the rule reports the bare key "k" as missing, and with "k" defined it
reports nothing.  A key reached through that translator value is therefore
checked against the defined-key set, contradicting the claim. -/
theorem claim_C5_counterexample :
    ruleNamespace (some EArg.nonLiteral) = []
    ∧ noMissingKeysReports (∅ : Finset Str)
        ⟨some EArg.nonLiteral, [ERef.calleeOf [EArg.strLiteral (chars ("k"))]]⟩
      = [chars ("k")]
    ∧ noMissingKeysReports {chars ("k")}
        ⟨some EArg.nonLiteral, [ERef.calleeOf [EArg.strLiteral (chars ("k"))]]⟩
      = [] := by
  refine ⟨by decide, by decide, by decide⟩

/-- C5 (amended): the two analysis paths diverge for a hook call whose
first argument is present but not a string literal.  In the CLI resolver
it records one dynamic-namespace record and creates no Translator Binding:
the used keys are unchanged and the result is independent of the world and
of the enclosing declaration, so no key reached through that translator is
ever added to the used-key set.  In the `no-missing-keys` rule path the
namespace instead falls back to the empty string with no dynamic record,
and every reference whose first argument is a literal key `k` is still
checked against the defined-key set as the bare key `k`, reported missing
exactly when `k` is not defined. -/
theorem claim_C5_dynamic_namespace_cli_and_rule :
    (∀ (w : World) (fuel : Nat) (st : RState) (rest : List Arg) (d : Option Nat),
      processHookCall w fuel st ⟨Arg.nonLit :: rest, d⟩
        = some ⟨st.usedKeys, st.dynamicUsages ++ [DynRec.dynNamespace]⟩)
    ∧ (∀ (a : EArg), isStringLiteralArg a = false → ruleNamespace (some a) = [])
    ∧ (∀ (definedKeys : Finset Str) (a : EArg) (k : Str) (rest : List EArg),
      isStringLiteralArg a = false →
      missingKeyReportsForRef definedKeys (ruleNamespace (some a))
          (ERef.calleeOf (EArg.strLiteral k :: rest))
        = if k ∈ definedKeys then [] else [k]) := by
  refine ⟨?_, ?_, ?_⟩
  · intro w fuel st rest d
    rfl
  · intro a ha
    cases a with
    | strLiteral s => simp [isStringLiteralArg] at ha
    | otherLiteral => rfl
    | nonLiteral => rfl
  · intro definedKeys a k rest ha
    have hns : ruleNamespace (some a) = [] := by
      cases a with
      | strLiteral s => simp [isStringLiteralArg] at ha
      | otherLiteral => rfl
      | nonLiteral => rfl
    rw [hns]
    simp [missingKeyReportsForRef, mkKey]

/-- C5 witness: with a non-literal hook argument the rule checks the bare
literal "k" against the empty defined-key set and reports it. -/
theorem claim_C5_dynamic_namespace_cli_and_rule_witness :
    isStringLiteralArg EArg.nonLiteral = false
    ∧ missingKeyReportsForRef (∅ : Finset Str)
        (ruleNamespace (some EArg.nonLiteral))
        (ERef.calleeOf [EArg.strLiteral (chars ("k"))])
      = if chars ("k") ∈ (∅ : Finset Str) then [] else [chars ("k")] :=
  ⟨by decide,
   claim_C5_dynamic_namespace_cli_and_rule.2.2 ∅ EArg.nonLiteral (chars ("k")) []
     (by decide)⟩

/-- C1 counterexample: with the zero-argument hook call the namespace is
the sentinel "default", and the direct call `t("greeting")` then yields the
used key "default.greeting" — not the bare literal "greeting" the claim
requires for the "default" namespace (the sentinel is a non-empty string,
so the truthiness test prefixes it like any other namespace). -/
theorem claim_C1_counterexample :
    runResolver exWorldC1 3 [exFileC1] ⟨[], []⟩
      = some ⟨[chars ("default.greeting")], []⟩
    ∧ chars ("greeting") ∉ [chars ("default.greeting")]
    ∧ chars ("default.greeting") ≠ chars ("greeting") := by
  refine ⟨?_, by decide, by decide⟩
  simp [runResolver, processFile, processHookCalls, processHookCall, exWorldC1,
    exFileC1, findUsagesF, processRefs, processRef, mkKey, addKey, lookupId, chars]

/-- C1 (amended): a hook call with zero arguments is resolved under the
namespace "default"; a direct translator call whose first argument is a
string literal `k` adds the bare literal `k` exactly when the namespace is
the empty string, and `ns ++ "." ++ k` for every non-empty namespace `ns`
— including the sentinel "default", which is prefixed like any other
namespace. -/
theorem claim_C1_default_namespace_key :
    (∀ (w : World) (fuel : Nat) (st : RState) (i : Nat),
      processHookCall w fuel st ⟨[], some i⟩
        = (findUsagesF w fuel i (chars ("default")) [] st).map (fun p => p.2))
    ∧ (∀ (w : World) (fuel : Nat) (ns k : Str) (rest : List Arg)
        (visited : List Nat) (st : RState),
      processRef w fuel (RefShape.directCall (Arg.lit k :: rest)) ns visited st
        = some (visited, addKey st (if ns = [] then k else ns ++ '.' :: k)))
    ∧ runResolver exWorldC1 3 [exFileC1] ⟨[], []⟩
        = some ⟨[chars ("default") ++ '.' :: chars ("greeting")], []⟩ := by
  refine ⟨?_, ?_, ?_⟩
  · intro w fuel st i
    cases h : findUsagesF w fuel i (chars ("default")) [] st with
    | none => simp [processHookCall, h]
    | some p => obtain ⟨v, st2⟩ := p; simp [processHookCall, h]
  · intro w fuel ns k rest visited st
    simp [processRef, mkKey]
  · simp [runResolver, processFile, processHookCalls, processHookCall, exWorldC1,
      exFileC1, findUsagesF, processRefs, processRef, mkKey, addKey, lookupId, chars]

theorem filter_length_mono (l : List Nat) (p q : Nat → Bool)
    (h : ∀ x, p x = true → q x = true) :
    (l.filter p).length ≤ (l.filter q).length := by
  induction l with
  | nil => exact Nat.le_refl 0
  | cons x t ih =>
    cases hp : p x with
    | true =>
      rw [List.filter_cons_of_pos hp, List.filter_cons_of_pos (h x hp)]
      simpa using ih
    | false =>
      rw [List.filter_cons_of_neg (by rw [hp]; exact Bool.false_ne_true)]
      cases hq : q x with
      | true =>
        rw [List.filter_cons_of_pos hq]
        exact Nat.le_succ_of_le ih
      | false =>
        rw [List.filter_cons_of_neg (by rw [hq]; exact Bool.false_ne_true)]
        exact ih

theorem unvisited_mono (w : World) (v v2 : List Nat)
    (h : ∀ x ∈ v, x ∈ v2) : unvisitedCount w v2 ≤ unvisitedCount w v := by
  apply filter_length_mono
  intro x hx
  simp only [decide_eq_true_eq] at hx ⊢
  intro hxv
  exact hx (h x hxv)

theorem lookupId_mem {α : Type} (l : List (Nat × α)) (n : Nat) (a : α)
    (h : lookupId l n = some a) : n ∈ l.map Prod.fst := by
  induction l with
  | nil => simp [lookupId] at h
  | cons ia rest ih =>
    obtain ⟨i, a2⟩ := ia
    by_cases hi : i = n
    · rw [hi]
      simp
    · rw [lookupId, if_neg hi] at h
      simp only [List.map_cons, List.mem_cons]
      exact Or.inr (ih h)

theorem filter_length_strict (v : List Nat) (id : Nat) (hnv : id ∉ v) :
    ∀ (l : List Nat), id ∈ l →
      (l.filter (fun i => decide (i ∉ v ++ [id]))).length
        < (l.filter (fun i => decide (i ∉ v))).length := by
  intro l
  induction l with
  | nil => intro hm; simp at hm
  | cons x t ih =>
    intro hm
    by_cases hx : x = id
    · have hc1 : x ∈ v ++ [id] := by
        rw [hx]
        exact List.mem_append_right v (by simp)
      have hc2 : x ∉ v := by
        rw [hx]
        exact hnv
      rw [List.filter_cons_of_neg (by simp [hc1]), List.filter_cons_of_pos (by simp [hc2])]
      have hle : (t.filter (fun i => decide (i ∉ v ++ [id]))).length
          ≤ (t.filter (fun i => decide (i ∉ v))).length := by
        apply filter_length_mono
        intro y hy
        simp only [decide_eq_true_eq] at hy ⊢
        intro hyv
        exact hy (List.mem_append_left _ hyv)
      rw [List.length_cons]
      exact Nat.lt_succ_of_le hle
    · have hmt : id ∈ t := by
        rcases List.mem_cons.mp hm with hm | hm
        · exact absurd hm.symm hx
        · exact hm
      have hceq : (x ∈ v ++ [id]) ↔ (x ∈ v) := by
        constructor
        · intro hmm
          rcases List.mem_append.mp hmm with hmm | hmm
          · exact hmm
          · rw [List.mem_singleton] at hmm
            exact absurd hmm hx
        · exact fun hmm => List.mem_append_left _ hmm
      by_cases hcx : x ∈ v
      · rw [List.filter_cons_of_neg (by simp [hceq.mpr hcx]),
          List.filter_cons_of_neg (by simp [hcx])]
        exact ih hmt
      · rw [List.filter_cons_of_pos
            (by simp only [decide_eq_true_eq]; intro hc; exact hcx (hceq.mp hc)),
          List.filter_cons_of_pos (by simp [hcx])]
        simpa using ih hmt

theorem unvisited_strict (w : World) (v : List Nat) (id : Nat)
    (hmem : id ∈ declIds w) (hnv : id ∉ v) :
    unvisitedCount w (v ++ [id]) < unvisitedCount w v :=
  filter_length_strict v id hnv (declIds w) hmem

theorem resolver_success (fuel : Nat) :
    ∀ (w : World),
    (∀ (es : List BindElem) (ns : Str) (visited : List Nat) (st : RState),
        unvisitedCount w visited + 1 < fuel →
        ∃ v2 st2, processElems w fuel es ns visited st = some (v2, st2)
          ∧ ∀ x ∈ visited, x ∈ v2)
    ∧ (∀ (callId argIndex : Nat) (ns : Str) (visited : List Nat) (st : RState)
          (destructured : Option Str),
        unvisitedCount w visited + 1 < fuel →
        ∃ v2 st2, handleArg w fuel callId argIndex ns visited st destructured
            = some (v2, st2)
          ∧ ∀ x ∈ visited, x ∈ v2)
    ∧ (∀ (r : RefShape) (ns : Str) (visited : List Nat) (st : RState),
        unvisitedCount w visited + 1 < fuel →
        ∃ v2 st2, processRef w fuel r ns visited st = some (v2, st2)
          ∧ ∀ x ∈ visited, x ∈ v2)
    ∧ (∀ (rs : List RefShape) (ns : Str) (visited : List Nat) (st : RState),
        unvisitedCount w visited + 1 < fuel →
        ∃ v2 st2, processRefs w fuel rs ns visited st = some (v2, st2)
          ∧ ∀ x ∈ visited, x ∈ v2)
    ∧ (∀ (id : Nat) (ns : Str) (visited : List Nat) (st : RState),
        unvisitedCount w visited < fuel →
        ∃ v2 st2, findUsagesF w fuel id ns visited st = some (v2, st2)
          ∧ ∀ x ∈ visited, x ∈ v2) := by
  induction fuel with
  | zero =>
    intro w
    refine ⟨?_, ?_, ?_, ?_, ?_⟩
    · intro _ _ _ _ hb
      exact absurd hb (Nat.not_lt_zero _)
    · intro _ _ _ _ _ _ hb
      exact absurd hb (Nat.not_lt_zero _)
    · intro _ _ _ _ hb
      exact absurd hb (Nat.not_lt_zero _)
    · intro _ _ _ _ hb
      exact absurd hb (Nat.not_lt_zero _)
    · intro _ _ _ _ hb
      exact absurd hb (Nat.not_lt_zero _)
  | succ f ih =>
    intro w
    obtain ⟨_, _, _, _, ihF⟩ := ih w
    have hE : ∀ (es : List BindElem) (ns : Str) (visited : List Nat) (st : RState),
        unvisitedCount w visited + 1 < f + 1 →
        ∃ v2 st2, processElems w (f + 1) es ns visited st = some (v2, st2)
          ∧ ∀ x ∈ visited, x ∈ v2 := by
      intro es
      induction es with
      | nil =>
        intro ns visited st _
        exact ⟨visited, st, by simp [processElems], fun x hx => hx⟩
      | cons e rest iher =>
        intro ns visited st hb
        have hbf : unvisitedCount w visited < f := by omega
        obtain ⟨v2, st2, heq2, hsub2⟩ := ihF e.declId ns visited st hbf
        have hb2 : unvisitedCount w v2 + 1 < f + 1 := by
          have := unvisited_mono w visited v2 hsub2
          omega
        obtain ⟨v3, st3, heq3, hsub3⟩ := iher ns v2 st2 hb2
        refine ⟨v3, st3, ?_, fun x hx => hsub3 x (hsub2 x hx)⟩
        simp only [processElems]
        rw [heq2]
        exact heq3
    have hH : ∀ (callId argIndex : Nat) (ns : Str) (visited : List Nat)
        (st : RState) (destructured : Option Str),
        unvisitedCount w visited + 1 < f + 1 →
        ∃ v2 st2, handleArg w (f + 1) callId argIndex ns visited st destructured
            = some (v2, st2)
          ∧ ∀ x ∈ visited, x ∈ v2 := by
      intro callId argIndex ns visited st destructured hb
      cases hlc : lookupId w.calls callId with
      | none =>
        refine ⟨visited, st, ?_, fun x hx => hx⟩
        simp [handleArg, hlc]
      | some cr =>
        cases cr with
        | notFn =>
          refine ⟨visited, st, ?_, fun x hx => hx⟩
          simp [handleArg, hlc]
        | fnLike params =>
          cases hg : params[argIndex]? with
          | none =>
            refine ⟨visited, st, ?_, fun x hx => hx⟩
            simp [handleArg, hlc, hg]
          | some param =>
            cases destructured with
            | some p =>
              cases hpat : param.pattern with
              | none =>
                refine ⟨visited, st, ?_, fun x hx => hx⟩
                simp [handleArg, hlc, hg, hpat]
              | some elems =>
                obtain ⟨v2, st2, heq, hsub⟩ :=
                  hE (elems.filter (fun e => e.propName = p)) ns visited st hb
                refine ⟨v2, st2, ?_, hsub⟩
                simp only [handleArg, hlc, hg, hpat]
                exact heq
            | none =>
              have hbf : unvisitedCount w visited < f := by omega
              obtain ⟨v2, st2, heq2, hsub2⟩ := ihF param.declId ns visited st hbf
              refine ⟨v2, st2, ?_, hsub2⟩
              simp only [handleArg, hlc, hg]
              exact heq2
    have hR : ∀ (r : RefShape) (ns : Str) (visited : List Nat) (st : RState),
        unvisitedCount w visited + 1 < f + 1 →
        ∃ v2 st2, processRef w (f + 1) r ns visited st = some (v2, st2)
          ∧ ∀ x ∈ visited, x ∈ v2 := by
      intro r ns visited st hb
      cases r with
      | directCall args =>
        cases args with
        | nil =>
          exact ⟨visited, addDyn st (DynRec.dynKey ns), by simp [processRef],
            fun x hx => hx⟩
        | cons a rest =>
          cases a with
          | lit k =>
            exact ⟨visited, addKey st (mkKey ns k), by simp [processRef],
              fun x hx => hx⟩
          | nonLit =>
            exact ⟨visited, addDyn st (DynRec.dynKey ns), by simp [processRef],
              fun x hx => hx⟩
      | argOfCall callId argIndex =>
        obtain ⟨v2, st2, heq, hsub⟩ := hH callId argIndex ns visited st none hb
        refine ⟨v2, st2, ?_, hsub⟩
        simp only [processRef]
        exact heq
      | propOfObjArg callId argIndex p init =>
        by_cases hcnd : p = chars ("t") ∨ init = true
        · obtain ⟨v2, st2, heq, hsub⟩ := hH callId argIndex ns visited st (some p) hb
          refine ⟨v2, st2, ?_, hsub⟩
          simp only [processRef]
          rw [if_pos hcnd]
          exact heq
        · refine ⟨visited, st, ?_, fun x hx => hx⟩
          simp only [processRef]
          rw [if_neg hcnd]
    have hRs : ∀ (rs : List RefShape) (ns : Str) (visited : List Nat) (st : RState),
        unvisitedCount w visited + 1 < f + 1 →
        ∃ v2 st2, processRefs w (f + 1) rs ns visited st = some (v2, st2)
          ∧ ∀ x ∈ visited, x ∈ v2 := by
      intro rs
      induction rs with
      | nil =>
        intro ns visited st _
        exact ⟨visited, st, by simp [processRefs], fun x hx => hx⟩
      | cons r rest ihrs =>
        intro ns visited st hb
        obtain ⟨v2, st2, heq2, hsub2⟩ := hR r ns visited st hb
        have hb2 : unvisitedCount w v2 + 1 < f + 1 := by
          have := unvisited_mono w visited v2 hsub2
          omega
        obtain ⟨v3, st3, heq3, hsub3⟩ := ihrs ns v2 st2 hb2
        refine ⟨v3, st3, ?_, fun x hx => hsub3 x (hsub2 x hx)⟩
        simp only [processRefs]
        rw [heq2]
        exact heq3
    refine ⟨hE, hH, hR, hRs, ?_⟩
    intro id ns visited st hb
    by_cases hv : id ∈ visited
    · exact ⟨visited, st, by simp [findUsagesF, hv], fun x hx => hx⟩
    · cases hld : lookupId w.decls id with
      | none =>
        refine ⟨visited ++ [id], st, ?_, fun x hx => List.mem_append_left _ hx⟩
        simp only [findUsagesF]
        rw [if_neg hv, hld]
      | some refs =>
        have hmem : id ∈ declIds w := lookupId_mem w.decls id refs hld
        have hlt := unvisited_strict w visited id hmem hv
        have hb2 : unvisitedCount w (visited ++ [id]) + 1 < f + 1 := by omega
        obtain ⟨v2, st2, heq, hsub⟩ := hRs refs ns (visited ++ [id]) st hb2
        refine ⟨v2, st2, ?_, fun x hx => hsub x (List.mem_append_left _ hx)⟩
        simp only [findUsagesF]
        rw [if_neg hv, hld]
        exact heq

/-- C6: the recursive usage search returns a result for every input — call
graphs with self-referential or cyclic forwarding edges included — whenever
the fuel exceeds the number of not-yet-visited declaration nodes: every
recursive expansion first consults the visited set and inserts the node, so
each declaration node is expanded at most once. -/
theorem claim_C6_resolver_terminates :
    ∀ (w : World) (fuel : Nat) (id : Nat) (ns : Str) (visited : List Nat)
      (st : RState),
      unvisitedCount w visited < fuel →
      (findUsagesF w fuel id ns visited st).isSome = true := by
  intro w fuel id ns visited st h
  obtain ⟨v2, st2, heq, _⟩ := (resolver_success fuel w).2.2.2.2 id ns visited st h
  rw [heq]
  rfl

/-- C6 witness: on the cyclic forwarding world the resolver finishes with
fuel 3 (two declaration nodes, none visited yet). -/
theorem claim_C6_resolver_terminates_witness :
    unvisitedCount exWorldC6 [] < 3
    ∧ (findUsagesF exWorldC6 3 0 (chars ("ns")) [] ⟨[], []⟩).isSome = true :=
  ⟨by decide,
   claim_C6_resolver_terminates exWorldC6 3 0 (chars ("ns")) [] ⟨[], []⟩ (by decide)⟩

theorem mem_addKey (st : RState) (k : Str) :
    ∀ k2 ∈ (addKey st k).usedKeys, k2 ∈ st.usedKeys ∨ k2 = k := by
  intro k2 h2
  rw [addKey] at h2
  by_cases hm : k ∈ st.usedKeys
  · rw [if_pos hm] at h2
    exact Or.inl h2
  · rw [if_neg hm] at h2
    simp only [List.mem_append, List.mem_singleton] at h2
    exact h2

theorem resolver_ns (fuel : Nat) :
    ∀ (w : World) (ns : Str),
    (∀ (es : List BindElem) (visited : List Nat) (st : RState)
        (v2 : List Nat) (st2 : RState),
        processElems w fuel es ns visited st = some (v2, st2) →
        ∀ k2 ∈ st2.usedKeys, k2 ∈ st.usedKeys ∨ ∃ k, k2 = mkKey ns k)
    ∧ (∀ (callId argIndex : Nat) (visited : List Nat) (st : RState)
        (destructured : Option Str) (v2 : List Nat) (st2 : RState),
        handleArg w fuel callId argIndex ns visited st destructured = some (v2, st2) →
        ∀ k2 ∈ st2.usedKeys, k2 ∈ st.usedKeys ∨ ∃ k, k2 = mkKey ns k)
    ∧ (∀ (r : RefShape) (visited : List Nat) (st : RState)
        (v2 : List Nat) (st2 : RState),
        processRef w fuel r ns visited st = some (v2, st2) →
        ∀ k2 ∈ st2.usedKeys, k2 ∈ st.usedKeys ∨ ∃ k, k2 = mkKey ns k)
    ∧ (∀ (rs : List RefShape) (visited : List Nat) (st : RState)
        (v2 : List Nat) (st2 : RState),
        processRefs w fuel rs ns visited st = some (v2, st2) →
        ∀ k2 ∈ st2.usedKeys, k2 ∈ st.usedKeys ∨ ∃ k, k2 = mkKey ns k)
    ∧ (∀ (id : Nat) (visited : List Nat) (st : RState)
        (v2 : List Nat) (st2 : RState),
        findUsagesF w fuel id ns visited st = some (v2, st2) →
        ∀ k2 ∈ st2.usedKeys, k2 ∈ st.usedKeys ∨ ∃ k, k2 = mkKey ns k) := by
  induction fuel using Nat.strong_induction_on with
  | _ fuel ih =>
  intro w ns
  have hE : ∀ (es : List BindElem) (visited : List Nat) (st : RState)
      (v2 : List Nat) (st2 : RState),
      processElems w fuel es ns visited st = some (v2, st2) →
      ∀ k2 ∈ st2.usedKeys, k2 ∈ st.usedKeys ∨ ∃ k, k2 = mkKey ns k := by
    intro es
    induction es with
    | nil =>
      intro visited st v2 st2 heq k2 h2
      simp only [processElems, Option.some.injEq, Prod.mk.injEq] at heq
      rw [← heq.2] at h2
      exact Or.inl h2
    | cons e rest iher =>
      intro visited st v2 st2 heq k2 h2
      cases fuel with
      | zero => simp [processElems] at heq
      | succ f =>
        simp only [processElems] at heq
        cases hf : findUsagesF w f e.declId ns visited st with
        | none => rw [hf] at heq; simp at heq
        | some p =>
          obtain ⟨vm, stm⟩ := p
          rw [hf] at heq
          simp only at heq
          have hmid := (ih f (Nat.lt_succ_self f) w ns).2.2.2.2
            e.declId visited st vm stm hf
          have hrest := iher vm stm v2 st2 heq k2 h2
          rcases hrest with hrest | hrest
          · exact hmid k2 hrest
          · exact Or.inr hrest
  have hH : ∀ (callId argIndex : Nat) (visited : List Nat) (st : RState)
      (destructured : Option Str) (v2 : List Nat) (st2 : RState),
      handleArg w fuel callId argIndex ns visited st destructured = some (v2, st2) →
      ∀ k2 ∈ st2.usedKeys, k2 ∈ st.usedKeys ∨ ∃ k, k2 = mkKey ns k := by
    intro callId argIndex visited st destructured v2 st2 heq k2 h2
    cases hlc : lookupId w.calls callId with
    | none =>
      simp only [handleArg, hlc, Option.some.injEq, Prod.mk.injEq] at heq
      rw [← heq.2] at h2
      exact Or.inl h2
    | some cr =>
      cases cr with
      | notFn =>
        simp only [handleArg, hlc, Option.some.injEq, Prod.mk.injEq] at heq
        rw [← heq.2] at h2
        exact Or.inl h2
      | fnLike params =>
        cases hg : params[argIndex]? with
        | none =>
          simp only [handleArg, hlc, hg, Option.some.injEq, Prod.mk.injEq] at heq
          rw [← heq.2] at h2
          exact Or.inl h2
        | some param =>
          cases destructured with
          | some p =>
            cases hpat : param.pattern with
            | none =>
              simp only [handleArg, hlc, hg, hpat, Option.some.injEq,
                Prod.mk.injEq] at heq
              rw [← heq.2] at h2
              exact Or.inl h2
            | some elems =>
              simp only [handleArg, hlc, hg, hpat] at heq
              exact hE (elems.filter (fun e => e.propName = p))
                visited st v2 st2 heq k2 h2
          | none =>
            cases fuel with
            | zero => simp [handleArg, hlc, hg] at heq
            | succ f =>
              simp only [handleArg, hlc, hg] at heq
              exact (ih f (Nat.lt_succ_self f) w ns).2.2.2.2
                param.declId visited st v2 st2 heq k2 h2
  have hR : ∀ (r : RefShape) (visited : List Nat) (st : RState)
      (v2 : List Nat) (st2 : RState),
      processRef w fuel r ns visited st = some (v2, st2) →
      ∀ k2 ∈ st2.usedKeys, k2 ∈ st.usedKeys ∨ ∃ k, k2 = mkKey ns k := by
    intro r visited st v2 st2 heq k2 h2
    cases r with
    | directCall args =>
      cases args with
      | nil =>
        simp only [processRef, Option.some.injEq, Prod.mk.injEq] at heq
        rw [← heq.2] at h2
        exact Or.inl h2
      | cons a rest =>
        cases a with
        | lit k =>
          simp only [processRef, Option.some.injEq, Prod.mk.injEq] at heq
          rw [← heq.2] at h2
          rcases mem_addKey st (mkKey ns k) k2 h2 with h3 | h3
          · exact Or.inl h3
          · exact Or.inr ⟨k, h3⟩
        | nonLit =>
          simp only [processRef, Option.some.injEq, Prod.mk.injEq] at heq
          rw [← heq.2] at h2
          exact Or.inl h2
    | argOfCall callId argIndex =>
      simp only [processRef] at heq
      exact hH callId argIndex visited st none v2 st2 heq k2 h2
    | propOfObjArg callId argIndex p init =>
      by_cases hcnd : p = chars ("t") ∨ init = true
      · rw [processRef, if_pos hcnd] at heq
        exact hH callId argIndex visited st (some p) v2 st2 heq k2 h2
      · rw [processRef, if_neg hcnd] at heq
        simp only [Option.some.injEq, Prod.mk.injEq] at heq
        rw [← heq.2] at h2
        exact Or.inl h2
  have hRs : ∀ (rs : List RefShape) (visited : List Nat) (st : RState)
      (v2 : List Nat) (st2 : RState),
      processRefs w fuel rs ns visited st = some (v2, st2) →
      ∀ k2 ∈ st2.usedKeys, k2 ∈ st.usedKeys ∨ ∃ k, k2 = mkKey ns k := by
    intro rs
    induction rs with
    | nil =>
      intro visited st v2 st2 heq k2 h2
      simp only [processRefs, Option.some.injEq, Prod.mk.injEq] at heq
      rw [← heq.2] at h2
      exact Or.inl h2
    | cons r rest ihrs =>
      intro visited st v2 st2 heq k2 h2
      simp only [processRefs] at heq
      cases hf : processRef w fuel r ns visited st with
      | none => rw [hf] at heq; simp at heq
      | some pm =>
        obtain ⟨vm, stm⟩ := pm
        rw [hf] at heq
        simp only at heq
        have hmid := hR r visited st vm stm hf
        have hrest := ihrs vm stm v2 st2 heq k2 h2
        rcases hrest with hrest | hrest
        · exact hmid k2 hrest
        · exact Or.inr hrest
  refine ⟨hE, hH, hR, hRs, ?_⟩
  intro id visited st v2 st2 heq k2 h2
  by_cases hv : id ∈ visited
  · simp only [findUsagesF, if_pos hv, Option.some.injEq, Prod.mk.injEq] at heq
    rw [← heq.2] at h2
    exact Or.inl h2
  · cases hld : lookupId w.decls id with
    | none =>
      simp only [findUsagesF, if_neg hv, hld, Option.some.injEq, Prod.mk.injEq] at heq
      rw [← heq.2] at h2
      exact Or.inl h2
    | some refs =>
      simp only [findUsagesF, if_neg hv, hld] at heq
      exact hRs refs (visited ++ [id]) st v2 st2 heq k2 h2

/-- C7: a Translator Binding's namespace never changes across forwarding:
whatever keys the recursive resolution of a binding adds to the used-key
set beyond those already present, each is the fixed namespace `ns`
qualifying some literal (`mkKey ns k`), across any number of positional or
destructured forwarding hops. -/
theorem claim_C7_namespace_propagates :
    ∀ (w : World) (fuel : Nat) (id : Nat) (ns : Str) (visited : List Nat)
      (st : RState) (v2 : List Nat) (st2 : RState),
      findUsagesF w fuel id ns visited st = some (v2, st2) →
      ∀ k2 ∈ st2.usedKeys, k2 ∈ st.usedKeys ∨ ∃ k, k2 = mkKey ns k := by
  intro w fuel id ns visited st v2 st2 heq
  exact (resolver_ns fuel w ns).2.2.2.2 id visited st v2 st2 heq

/-- C7 witness: the key produced through two forwarding hops carries the
original namespace "ns" unchanged. -/
theorem claim_C7_namespace_propagates_witness :
    chars ("ns.x") ∈ ([] : List Str) ∨ ∃ k, chars ("ns.x") = mkKey (chars ("ns")) k :=
  claim_C7_namespace_propagates exWorldC7 7 0 (chars ("ns")) [] ⟨[], []⟩ [0, 1, 2]
    ⟨[chars ("ns.x")], []⟩
    (by simp [findUsagesF, processRefs, processRef, handleArg, lookupId, mkKey,
      addKey, exWorldC7, chars])
    (chars ("ns.x")) (by decide)

/-- C8: when the canonical key document is absent or unparsable the key
loader returns the empty defined-key set (it is a total function — nothing
is raised, so the rule path degrades to "no known keys"), and the CLI
aborts with exit code 1 before the resolver runs. -/
theorem claim_C8_absent_unparsable :
    loadMessages FileResult.absent = ∅
    ∧ loadMessages FileResult.unparsable = ∅
    ∧ (∀ (w : World) (fuel : Nat) (files : List SrcFile),
        runCli FileResult.absent w fuel files = CliOutcome.abortedEarly 1)
    ∧ (∀ (w : World) (fuel : Nat) (files : List SrcFile),
        runCli FileResult.unparsable w fuel files = CliOutcome.abortedEarly 1) := by
  refine ⟨rfl, rfl, ?_, ?_⟩
  · intro w fuel files
    simp [runCli, loadMessages]
  · intro w fuel files
    simp [runCli, loadMessages]

/-- C9: the `no-dynamic-keys` rule never reports a translator call with
zero arguments — such a reference contributes nothing to the rule's
diagnostics — and a `dynamicKey` diagnostic is emitted for a call exactly
when it has at least one argument whose first argument is not a string
literal. -/
theorem claim_C9_dynamic_key_reports :
    (∀ (b : Bool) (rest : List ERef),
      noDynamicKeysReports ⟨b, ERef.calleeOf [] :: rest⟩
        = noDynamicKeysReports ⟨b, rest⟩)
    ∧ dynReportsForRef (ERef.calleeOf []) = 0
    ∧ (∀ (args : List EArg),
      dynReportsForRef (ERef.calleeOf args) = 1
        ↔ ∃ a rest, args = a :: rest ∧ isStringLiteralArg a = false) := by
  refine ⟨?_, rfl, ?_⟩
  · intro b rest
    cases b with
    | false => rfl
    | true => simp [noDynamicKeysReports, dynReportsForRef]
  · intro args
    cases args with
    | nil =>
      simp [dynReportsForRef]
    | cons a rest =>
      cases ha : isStringLiteralArg a with
      | true =>
        simp only [dynReportsForRef, ha, if_pos rfl]
        constructor
        · intro h
          exact absurd h (by decide)
        · intro ⟨a2, rest2, heq, hstr⟩
          injection heq with h1 h2
          rw [← h1] at hstr
          rw [ha] at hstr
          exact absurd hstr (by decide)
      | false =>
        simp only [dynReportsForRef, ha]
        constructor
        · intro _
          exact ⟨a, rest, rfl, ha⟩
        · intro _
          simp

/-- C9 witness: a call whose first argument is a non-literal expression is
reported. -/
theorem claim_C9_dynamic_key_reports_witness :
    dynReportsForRef (ERef.calleeOf [EArg.nonLiteral]) = 1 :=
  (claim_C9_dynamic_key_reports.2.2 [EArg.nonLiteral]).mpr
    ⟨EArg.nonLiteral, [], rfl, rfl⟩
